import Mathlib

/-!
# Verification of the chatkit-ts streaming reconciliation engine

This development embeds the core of the `chatkit-ts` server SDK
(`src/helpers/server.helper.ts`, `src/server.ts`) in Lean and proves
properties of the widget diff engine, the streaming widget emitter and
the thread event coordinator.

Widget trees are JSON-shaped JavaScript objects.  We model them with the
type `Val` below; a widget component is the field list of such an object
(`Fields`).  A field that is absent from the object corresponds to the
JavaScript value `undefined`, which we render as `Option.none` of the
field lookup.  JavaScript `!==` on primitives coincides with structural
inequality; on objects it is reference inequality, which has no
counterpart in a value-level model — following the repository spec's
reading we treat nested objects as compared by value ("opaque by
equality").  Strings are compared and sliced through their character
lists, which agrees with the JavaScript operations on well-formed
Unicode text.
-/

namespace ChatKit

/-- JSON-like runtime values making up widget trees. -/
inductive Val where
  | vStr : String → Val
  | vInt : Int → Val
  | vBool : Bool → Val
  | vNull : Val
  | vArr : List Val → Val
  | vObj : List (String × Val) → Val

/-- The field list of a widget component object. -/
abbrev Fields := List (String × Val)

mutual

/-- Structural size of a value (used for termination measures). -/
def vsize : Val → Nat
  | .vStr _ => 1
  | .vInt _ => 1
  | .vBool _ => 1
  | .vNull => 1
  | .vArr xs => 1 + vsizeL xs
  | .vObj fs => 1 + vsizeF fs

/-- Structural size of a value list. -/
def vsizeL : List Val → Nat
  | [] => 1
  | x :: xs => 1 + vsize x + vsizeL xs

/-- Structural size of a field list. -/
def vsizeF : Fields → Nat
  | [] => 1
  | (_, v) :: fs => 1 + vsize v + vsizeF fs

end

mutual

/-- Boolean structural equality of values. -/
def beqV : Val → Val → Bool
  | .vStr a, .vStr b => a == b
  | .vInt a, .vInt b => a == b
  | .vBool a, .vBool b => a == b
  | .vNull, .vNull => true
  | .vArr xs, .vArr ys => beqL xs ys
  | .vObj fs, .vObj gs => beqF fs gs
  | _, _ => false

/-- Boolean structural equality of value lists. -/
def beqL : List Val → List Val → Bool
  | [], [] => true
  | x :: xs, y :: ys => beqV x y && beqL xs ys
  | _, _ => false

/-- Boolean structural equality of field lists. -/
def beqF : Fields → Fields → Bool
  | [], [] => true
  | (k, v) :: fs, (l, w) :: gs => k == l && beqV v w && beqF fs gs
  | _, _ => false

end

theorem beq_iff_eq_all :
    ∀ n : Nat,
      (∀ a b : Val, vsize a ≤ n → (beqV a b = true ↔ a = b)) ∧
      (∀ xs ys : List Val, vsizeL xs ≤ n → (beqL xs ys = true ↔ xs = ys)) ∧
      (∀ fs gs : Fields, vsizeF fs ≤ n → (beqF fs gs = true ↔ fs = gs)) := by
  intro n
  induction n using Nat.strong_induction_on with
  | _ n ih =>
    have hval : ∀ a b : Val, vsize a ≤ n → (beqV a b = true ↔ a = b) := by
      intro a b ha
      cases a <;> cases b <;>
        simp_all [beqV, vsize] <;>
        first
        | rfl
        | (rename_i xs ys
           exact (ih (vsizeL xs) (by omega)).2.1 xs ys (le_refl _))
        | (rename_i fs gs
           exact (ih (vsizeF fs) (by omega)).2.2 fs gs (le_refl _))
    refine ⟨hval, ?_, ?_⟩
    · intro xs
      induction xs with
      | nil => intro ys _; cases ys <;> simp [beqL]
      | cons x xs ihx =>
        intro ys hsz
        cases ys with
        | nil => simp [beqL]
        | cons y ys =>
          simp only [vsizeL] at hsz
          have h1 := hval x y (by omega)
          have h2 := ihx ys (by omega)
          simp [beqL, h1, h2]
    · intro fs
      induction fs with
      | nil => intro gs _; cases gs <;> simp [beqF]
      | cons p fs ihf =>
        intro gs hsz
        obtain ⟨k, v⟩ := p
        cases gs with
        | nil => simp [beqF]
        | cons q gs =>
          obtain ⟨l, w⟩ := q
          simp only [vsizeF] at hsz
          have h1 := hval v w (by omega)
          have h2 := ihf gs (by omega)
          simp [beqF, h1, h2]

theorem beqV_iff_eq (a b : Val) : beqV a b = true ↔ a = b :=
  (beq_iff_eq_all (vsize a)).1 a b (le_refl _)

instance : DecidableEq Val := fun a b =>
  decidable_of_iff (beqV a b = true) (beqV_iff_eq a b)

/-- JavaScript property access `obj[k]`: first binding wins, `none` is
`undefined`. -/
def lookupF : Fields → String → Option Val
  | [], _ => none
  | (k, v) :: rest, key => if k = key then some v else lookupF rest key

/-- JavaScript truthiness of a value. -/
def truthy : Val → Bool
  | .vStr s => s ≠ ""
  | .vInt n => n ≠ 0
  | .vBool b => b
  | .vNull => false
  | .vArr _ => true
  | .vObj _ => true

/-- `isStreamingText` from `server.helper.ts`: the component's `type` is
`"Text"` and its `value` is a string. -/
def isStreamingTextN (fs : Fields) : Bool :=
  (match lookupF fs "type" with
   | some (Val.vStr s) => s = "Text"
   | _ => false) &&
  (match lookupF fs "value" with
   | some (Val.vStr _) => true
   | _ => false)

/-- The string value of a text component (`String(node.value ?? "")`);
the callers only reach this when `isStreamingTextN` holds, so the
`value` field is a string. -/
def strValueOf (fs : Fields) : String :=
  match lookupF fs "value" with
  | some (Val.vStr s) => s
  | _ => ""

/-- JavaScript `a.startsWith(b)` as a character-list prefix test. -/
def strStarts (a b : String) : Bool :=
  b.data.isPrefixOf a.data

/-- Deduplication keeping first occurrences (JavaScript `Set` insertion
order), with an explicit seen-accumulator. -/
def dedupAux (seen : List String) : List String → List String
  | [] => []
  | k :: ks => if k ∈ seen then dedupAux seen ks else k :: dedupAux (k :: seen) ks

/-- The union of field names of two objects, in `Set` insertion order
(before's keys, then after's keys, first occurrences kept). -/
def unionKeys (fs gs : Fields) : List String :=
  dedupAux [] (fs.map Prod.fst ++ gs.map Prod.fst)

/-- The `value`-extension exemption in `fullReplace`: both nodes are
streaming text and the new value extends the old one. -/
def valueExempt (fs gs : Fields) : Bool :=
  isStreamingTextN fs && isStreamingTextN gs &&
    strStarts (strValueOf gs) (strValueOf fs)

/-- The `streaming`-flag exemption in `fullReplace`: both nodes are
streaming text (any change to `streaming` alone is tolerated). -/
def streamingExempt (fs gs : Fields) : Bool :=
  isStreamingTextN fs && isStreamingTextN gs

/-- Size measure of an optional value, for termination. -/
def mvalv : Option Val → Nat
  | none => 0
  | some v => vsize v

theorem vsizeF_pos (fs : Fields) : 1 ≤ vsizeF fs := by
  cases fs with
  | nil => simp [vsizeF]
  | cons p fs => obtain ⟨k, v⟩ := p; simp [vsizeF]; omega

theorem vsizeL_pos (xs : List Val) : 1 ≤ vsizeL xs := by
  cases xs with
  | nil => simp [vsizeL]
  | cons x xs => simp [vsizeL]; omega

theorem lookupF_vsize {fs : Fields} {key : String} {v : Val}
    (h : lookupF fs key = some v) : vsize v < vsizeF fs := by
  induction fs with
  | nil => simp [lookupF] at h
  | cons p rest ih =>
    obtain ⟨k, w⟩ := p
    by_cases hk : k = key
    · simp [lookupF, hk] at h
      subst h
      simp [vsizeF]
      have := vsizeF_pos rest
      omega
    · simp [lookupF, hk] at h
      have := ih h
      simp [vsizeF]
      omega

theorem mvalv_lookup_lt (fs gs : Fields) (k : String) :
    mvalv (lookupF fs k) + mvalv (lookupF gs k) < vsizeF fs + vsizeF gs := by
  have h1 : mvalv (lookupF fs k) < vsizeF fs := by
    cases h : lookupF fs k with
    | none => have := vsizeF_pos fs; simp [mvalv]; omega
    | some v => simpa [mvalv] using lookupF_vsize h
  have h2 : mvalv (lookupF gs k) < vsizeF gs := by
    cases h : lookupF gs k with
    | none => have := vsizeF_pos gs; simp [mvalv]; omega
    | some v => simpa [mvalv] using lookupF_vsize h
  omega

/-!
The four mutually recursive functions making up `fullReplace` recurse
through `lookupF`, which structural recursion cannot see; so they are
defined with an explicit fuel argument (one unit per call) and wrapped
below with a proven-sufficient budget (`mfv`, `mfa`, `mfc`, `mfr`).
`frIrrel` shows the result does not depend on the budget once it is
sufficient, which yields the recursion equations the proofs use.
-/

mutual

/-- `fullReplaceValue` from `server.helper.ts` (fueled), deciding
whether a pair of field values forces a full widget replace. -/
def frvF : Nat → Option Val → Option Val → Bool
  | 0, _, _ => true
  | fuel + 1, some (Val.vArr xs), some (Val.vArr ys) =>
    if xs.length = ys.length then fraF fuel xs ys else true
  | fuel + 1, b, a =>
    if b = a then false
    else
      match b, a with
      | some (Val.vObj fs), some (Val.vObj gs) =>
        if (lookupF fs "type").isSome && (lookupF gs "type").isSome then
          frF fuel fs gs
        else true
      | _, _ => true

/-- Element-wise array check inside `fullReplaceValue` (fueled). -/
def fraF : Nat → List Val → List Val → Bool
  | 0, _, _ => true
  | _ + 1, [], _ => false
  | _ + 1, _ :: _, [] => false
  | fuel + 1, x :: xs', y :: ys' =>
    frvF fuel (some x) (some y) || fraF fuel xs' ys'

/-- The per-field loop of `fullReplace` (fueled), iterating the union
of keys. -/
def ffcF : Nat → Fields → Fields → List String → Bool
  | 0, _, _, _ => true
  | _ + 1, _, _, [] => false
  | fuel + 1, fs, gs, k :: ks' =>
    (if valueExempt fs gs && k = "value" then false
     else if streamingExempt fs gs && k = "streaming" then false
     else frvF fuel (lookupF fs k) (lookupF gs k)) || ffcF fuel fs gs ks'

/-- `fullReplace` from `server.helper.ts` (fueled): whether the change
from `fs` to `gs` requires replacing the whole widget. -/
def frF : Nat → Fields → Fields → Bool
  | 0, _, _ => true
  | fuel + 1, fs, gs =>
    if lookupF fs "type" ≠ lookupF gs "type" ∨ lookupF fs "id" ≠ lookupF gs "id" ∨
        lookupF fs "key" ≠ lookupF gs "key" then true
    else ffcF fuel fs gs (unionKeys fs gs)

end

/-- Fuel budget for `frvF`. -/
def mfv (b a : Option Val) : Nat :=
  (mvalv b + mvalv a) * (mvalv b + mvalv a) + (mvalv b + mvalv a) + 1

/-- Fuel budget for `fraF`. -/
def mfa (xs ys : List Val) : Nat :=
  (vsizeL xs + vsizeL ys) * (vsizeL xs + vsizeL ys) + (vsizeL xs + vsizeL ys)

/-- Fuel budget for `ffcF`. -/
def mfc (fs gs : Fields) (ks : List String) : Nat :=
  (vsizeF fs + vsizeF gs) * (vsizeF fs + vsizeF gs) + ks.length

/-- Fuel budget for `frF`. -/
def mfr (fs gs : Fields) : Nat :=
  (vsizeF fs + vsizeF gs) * (vsizeF fs + vsizeF gs) + (vsizeF fs + vsizeF gs)

/-- `fullReplaceValue` from `server.helper.ts`. -/
def fullReplaceValue (b a : Option Val) : Bool := frvF (mfv b a) b a

/-- `fullReplaceArr`: the element-wise array check. -/
def fullReplaceArr (xs ys : List Val) : Bool := fraF (mfa xs ys) xs ys

/-- The per-field loop of `fullReplace`. -/
def fieldsCheck (fs gs : Fields) (ks : List String) : Bool :=
  ffcF (mfc fs gs ks) fs gs ks

/-- `fullReplace` from `server.helper.ts`. -/
def fullReplace (fs gs : Fields) : Bool := frF (mfr fs gs) fs gs

theorem vsize_pos (v : Val) : 1 ≤ vsize v := by
  cases v <;> simp [vsize]

theorem len_lt_vsizeF (fs : Fields) : fs.length < vsizeF fs := by
  induction fs with
  | nil => simp [vsizeF]
  | cons p rest ih =>
    obtain ⟨k, v⟩ := p
    have := vsize_pos v
    simp [vsizeF]
    omega

theorem dedupAux_length_le (l : List String) :
    ∀ seen, (dedupAux seen l).length ≤ l.length := by
  induction l with
  | nil => intro seen; simp [dedupAux]
  | cons k ks ih =>
    intro seen
    by_cases hk : k ∈ seen
    · simp [dedupAux, hk]
      have := ih seen
      omega
    · simp [dedupAux, hk]
      have := ih (k :: seen)
      omega

theorem unionKeys_length_lt (fs gs : Fields) :
    (unionKeys fs gs).length < vsizeF fs + vsizeF gs := by
  have h1 := dedupAux_length_le (fs.map Prod.fst ++ gs.map Prod.fst) []
  have h2 := len_lt_vsizeF fs
  have h3 := len_lt_vsizeF gs
  simp at h1
  simp [unionKeys]
  omega

theorem mvalv_lookup_le2 (fs gs : Fields) (k : String) :
    mvalv (lookupF fs k) + mvalv (lookupF gs k) + 2 ≤ vsizeF fs + vsizeF gs := by
  have h1 : mvalv (lookupF fs k) < vsizeF fs := by
    cases h : lookupF fs k with
    | none => have := vsizeF_pos fs; simp [mvalv]; omega
    | some v => simpa [mvalv] using lookupF_vsize h
  have h2 : mvalv (lookupF gs k) < vsizeF gs := by
    cases h : lookupF gs k with
    | none => have := vsizeF_pos gs; simp [mvalv]; omega
    | some v => simpa [mvalv] using lookupF_vsize h
  omega

theorem mfv_pos (b a : Option Val) : 1 ≤ mfv b a := by
  simp [mfv]

theorem mfa_pos (xs ys : List Val) : 1 ≤ mfa xs ys := by
  have h1 := vsizeL_pos xs
  have h2 := vsizeL_pos ys
  have h3 : 1 ≤ vsizeL xs + vsizeL ys := by omega
  calc 1 ≤ vsizeL xs + vsizeL ys := h3
    _ ≤ mfa xs ys := Nat.le_add_left _ _

theorem mfc_pos (fs gs : Fields) (ks : List String) : 1 ≤ mfc fs gs ks := by
  have h1 := vsizeF_pos fs
  have h2 := vsizeF_pos gs
  have hs : 1 ≤ vsizeF fs + vsizeF gs := by omega
  have : 1 * 1 ≤ (vsizeF fs + vsizeF gs) * (vsizeF fs + vsizeF gs) :=
    Nat.mul_le_mul hs hs
  simp [mfc]
  linarith

theorem mfr_pos (fs gs : Fields) : 1 ≤ mfr fs gs := by
  have h1 := vsizeF_pos fs
  have h2 := vsizeF_pos gs
  have h3 : 1 ≤ vsizeF fs + vsizeF gs := by omega
  calc 1 ≤ vsizeF fs + vsizeF gs := h3
    _ ≤ mfr fs gs := Nat.le_add_left _ _

theorem mfa_lt_mfv_arr (xs ys : List Val) :
    mfa xs ys < mfv (some (Val.vArr xs)) (some (Val.vArr ys)) := by
  simp only [mfa, mfv, mvalv, vsize]
  set t := vsizeL xs + vsizeL ys with ht
  have : (1 + vsizeL xs + (1 + vsizeL ys)) = t + 2 := by omega
  rw [this]
  nlinarith

theorem mfr_lt_mfv_obj (fs gs : Fields) :
    mfr fs gs < mfv (some (Val.vObj fs)) (some (Val.vObj gs)) := by
  simp only [mfr, mfv, mvalv, vsize]
  set s := vsizeF fs + vsizeF gs with hs
  have : (1 + vsizeF fs + (1 + vsizeF gs)) = s + 2 := by omega
  rw [this]
  nlinarith

theorem mfv_lt_mfa_cons (x y : Val) (xs ys : List Val) :
    mfv (some x) (some y) < mfa (x :: xs) (y :: ys) := by
  have h1 := vsizeL_pos xs
  have h2 := vsizeL_pos ys
  simp only [mfv, mfa, mvalv, vsizeL]
  set m := vsize x + vsize y with hm
  set t := 1 + vsize x + vsizeL xs + (1 + vsize y + vsizeL ys) with htd
  have ht : m + 4 ≤ t := by omega
  have hsq : (m + 4) * (m + 4) ≤ t * t := Nat.mul_le_mul ht ht
  nlinarith

theorem mfa_cons_lt (x y : Val) (xs ys : List Val) :
    mfa xs ys < mfa (x :: xs) (y :: ys) := by
  have h1 := vsize_pos x
  have h2 := vsize_pos y
  simp only [mfa, vsizeL]
  set t' := vsizeL xs + vsizeL ys with ht'
  set t := 1 + vsize x + vsizeL xs + (1 + vsize y + vsizeL ys) with htd
  have ht : t' + 4 ≤ t := by omega
  have hsq : (t' + 4) * (t' + 4) ≤ t * t := Nat.mul_le_mul ht ht
  nlinarith

theorem mfv_lookup_lt_mfc (fs gs : Fields) (k : String) (ks : List String) :
    mfv (lookupF fs k) (lookupF gs k) < mfc fs gs ks := by
  have hm2 := mvalv_lookup_le2 fs gs k
  have h1 := vsizeF_pos fs
  have h2 := vsizeF_pos gs
  simp only [mfv, mfc]
  set m := mvalv (lookupF fs k) + mvalv (lookupF gs k) with hmd
  set s := vsizeF fs + vsizeF gs with hsd
  have hms : m + 2 ≤ s := by omega
  have hsq : (m + 2) * (m + 2) ≤ s * s := Nat.mul_le_mul hms hms
  nlinarith

theorem mfc_cons_lt (fs gs : Fields) (k : String) (ks : List String) :
    mfc fs gs ks < mfc fs gs (k :: ks) := by
  simp only [mfc, List.length_cons]
  omega

theorem mfc_union_lt_mfr (fs gs : Fields) :
    mfc fs gs (unionKeys fs gs) < mfr fs gs := by
  have := unionKeys_length_lt fs gs
  simp only [mfc, mfr]
  omega

theorem frIrrel :
    ∀ m : Nat,
      (∀ f1 f2 b a, mfv b a ≤ m → mfv b a ≤ f1 → mfv b a ≤ f2 →
        frvF f1 b a = frvF f2 b a) ∧
      (∀ f1 f2 xs ys, mfa xs ys ≤ m → mfa xs ys ≤ f1 → mfa xs ys ≤ f2 →
        fraF f1 xs ys = fraF f2 xs ys) ∧
      (∀ f1 f2 fs gs ks, mfc fs gs ks ≤ m → mfc fs gs ks ≤ f1 → mfc fs gs ks ≤ f2 →
        ffcF f1 fs gs ks = ffcF f2 fs gs ks) ∧
      (∀ f1 f2 fs gs, mfr fs gs ≤ m → mfr fs gs ≤ f1 → mfr fs gs ≤ f2 →
        frF f1 fs gs = frF f2 fs gs) := by
  intro m
  induction m using Nat.strong_induction_on with
  | _ m ih =>
    refine ⟨?_, ?_, ?_, ?_⟩
    · intro f1 f2 b a hm h1 h2
      have hp := mfv_pos b a
      obtain ⟨g1, rfl⟩ : ∃ g, f1 = g + 1 := ⟨f1 - 1, by omega⟩
      obtain ⟨g2, rfl⟩ : ∃ g, f2 = g + 1 := ⟨f2 - 1, by omega⟩
      rcases b with _ | vb <;> rcases a with _ | va
      · rfl
      · cases va <;> rfl
      · cases vb <;> rfl
      · cases vb <;> cases va <;> try rfl
        · -- vArr / vArr
          rename_i xs ys
          have hlt := mfa_lt_mfv_arr xs ys
          simp only [frvF]
          by_cases hl : xs.length = ys.length
          · simp only [hl, if_true]
            exact (ih (mfa xs ys) (by omega)).2.1 g1 g2 xs ys (le_refl _)
              (by omega) (by omega)
          · simp [hl]
        · -- vObj / vObj
          rename_i fs gs
          have hlt := mfr_lt_mfv_obj fs gs
          simp only [frvF]
          by_cases he : (some (Val.vObj fs) : Option Val) = some (Val.vObj gs)
          · simp [he]
          · simp only [he, if_false]
            by_cases ht : (lookupF fs "type").isSome && (lookupF gs "type").isSome
            · simp only [ht, if_true]
              exact (ih (mfr fs gs) (by omega)).2.2.2 g1 g2 fs gs (le_refl _)
                (by omega) (by omega)
            · simp [ht]
    · intro f1 f2 xs ys hm h1 h2
      have hp := mfa_pos xs ys
      obtain ⟨g1, rfl⟩ : ∃ g, f1 = g + 1 := ⟨f1 - 1, by omega⟩
      obtain ⟨g2, rfl⟩ : ∃ g, f2 = g + 1 := ⟨f2 - 1, by omega⟩
      cases xs with
      | nil => rfl
      | cons x xs' =>
        cases ys with
        | nil => rfl
        | cons y ys' =>
          have hv := mfv_lt_mfa_cons x y xs' ys'
          have ha := mfa_cons_lt x y xs' ys'
          simp only [fraF]
          have e1 : frvF g1 (some x) (some y) = frvF g2 (some x) (some y) :=
            (ih (mfv (some x) (some y)) (by omega)).1 g1 g2 _ _ (le_refl _)
              (by omega) (by omega)
          have e2 : fraF g1 xs' ys' = fraF g2 xs' ys' :=
            (ih (mfa xs' ys') (by omega)).2.1 g1 g2 xs' ys' (le_refl _)
              (by omega) (by omega)
          rw [e1, e2]
    · intro f1 f2 fs gs ks hm h1 h2
      have hp := mfc_pos fs gs ks
      obtain ⟨g1, rfl⟩ : ∃ g, f1 = g + 1 := ⟨f1 - 1, by omega⟩
      obtain ⟨g2, rfl⟩ : ∃ g, f2 = g + 1 := ⟨f2 - 1, by omega⟩
      cases ks with
      | nil => rfl
      | cons k ks' =>
        have hv := mfv_lookup_lt_mfc fs gs k (k :: ks')
        have hc := mfc_cons_lt fs gs k ks'
        simp only [ffcF]
        have e1 : frvF g1 (lookupF fs k) (lookupF gs k) =
            frvF g2 (lookupF fs k) (lookupF gs k) :=
          (ih (mfv (lookupF fs k) (lookupF gs k)) (by omega)).1 g1 g2 _ _
            (le_refl _) (by omega) (by omega)
        have e2 : ffcF g1 fs gs ks' = ffcF g2 fs gs ks' :=
          (ih (mfc fs gs ks') (by omega)).2.2.1 g1 g2 fs gs ks' (le_refl _)
            (by omega) (by omega)
        rw [e1, e2]
    · intro f1 f2 fs gs hm h1 h2
      have hp := mfr_pos fs gs
      obtain ⟨g1, rfl⟩ : ∃ g, f1 = g + 1 := ⟨f1 - 1, by omega⟩
      obtain ⟨g2, rfl⟩ : ∃ g, f2 = g + 1 := ⟨f2 - 1, by omega⟩
      have hu := mfc_union_lt_mfr fs gs
      simp only [frF]
      by_cases hc : lookupF fs "type" ≠ lookupF gs "type" ∨
          lookupF fs "id" ≠ lookupF gs "id" ∨ lookupF fs "key" ≠ lookupF gs "key"
      · simp [hc]
      · simp only [hc, if_false]
        exact (ih (mfc fs gs (unionKeys fs gs)) (by omega)).2.2.1 g1 g2 fs gs _
          (le_refl _) (by omega) (by omega)

/-- Recursion equation of `fullReplaceValue` on array pairs. -/
theorem fullReplaceValue_arr (xs ys : List Val) :
    fullReplaceValue (some (Val.vArr xs)) (some (Val.vArr ys)) =
      if xs.length = ys.length then fullReplaceArr xs ys else true := by
  have hp := mfv_pos (some (Val.vArr xs)) (some (Val.vArr ys))
  have hlt := mfa_lt_mfv_arr xs ys
  unfold fullReplaceValue
  obtain ⟨g, hg⟩ : ∃ g, mfv (some (Val.vArr xs)) (some (Val.vArr ys)) = g + 1 :=
    ⟨mfv (some (Val.vArr xs)) (some (Val.vArr ys)) - 1, by omega⟩
  rw [hg]
  simp only [frvF]
  by_cases hl : xs.length = ys.length
  · simp only [hl, if_true]
    exact (frIrrel (g ⊔ mfa xs ys)).2.1 g (mfa xs ys) xs ys (le_sup_right)
      (by omega) (le_refl _)
  · simp [hl]

/-- Recursion equation of `fullReplaceValue` on object pairs. -/
theorem fullReplaceValue_obj (fs gs : Fields) :
    fullReplaceValue (some (Val.vObj fs)) (some (Val.vObj gs)) =
      if (Val.vObj fs) = (Val.vObj gs) then false
      else if (lookupF fs "type").isSome && (lookupF gs "type").isSome then
        fullReplace fs gs
      else true := by
  have hp := mfv_pos (some (Val.vObj fs)) (some (Val.vObj gs))
  have hlt := mfr_lt_mfv_obj fs gs
  unfold fullReplaceValue
  obtain ⟨g, hg⟩ : ∃ g, mfv (some (Val.vObj fs)) (some (Val.vObj gs)) = g + 1 :=
    ⟨mfv (some (Val.vObj fs)) (some (Val.vObj gs)) - 1, by omega⟩
  rw [hg]
  simp only [frvF, Option.some.injEq]
  by_cases he : (Val.vObj fs) = (Val.vObj gs)
  · simp [he]
  · simp only [he, if_false]
    by_cases ht : (lookupF fs "type").isSome && (lookupF gs "type").isSome
    · simp only [ht, if_true]
      exact (frIrrel (g ⊔ mfr fs gs)).2.2.2 g (mfr fs gs) fs gs le_sup_right
        (by omega) (le_refl _)
    · simp [ht]

/-- `fullReplaceValue` on equal values is computed below (`frv_refl`);
on values that are neither an array pair nor an object pair, inequality
forces a replace. -/
theorem fullReplaceValue_other (b a : Option Val)
    (harr : ∀ xs ys, ¬ (b = some (Val.vArr xs) ∧ a = some (Val.vArr ys)))
    (hobj : ∀ fs gs, ¬ (b = some (Val.vObj fs) ∧ a = some (Val.vObj gs))) :
    fullReplaceValue b a = if b = a then false else true := by
  have hp := mfv_pos b a
  unfold fullReplaceValue
  obtain ⟨g, hg⟩ : ∃ g, mfv b a = g + 1 := ⟨mfv b a - 1, by omega⟩
  rw [hg]
  rcases b with _ | vb <;> rcases a with _ | va
  · rfl
  · cases va <;> rfl
  · cases vb <;> rfl
  · cases vb <;> cases va <;> first
      | rfl
      | (exact absurd ⟨rfl, rfl⟩ (harr _ _))
      | (exact absurd ⟨rfl, rfl⟩ (hobj _ _))

/-- Recursion equations of `fullReplaceArr`. -/
theorem fullReplaceArr_nil_left (ys : List Val) : fullReplaceArr [] ys = false := by
  have hp := mfa_pos ([] : List Val) ys
  unfold fullReplaceArr
  obtain ⟨g, hg⟩ : ∃ g, mfa [] ys = g + 1 := ⟨mfa [] ys - 1, by omega⟩
  rw [hg]
  rfl

theorem fullReplaceArr_nil_right (x : Val) (xs : List Val) :
    fullReplaceArr (x :: xs) [] = false := by
  have hp := mfa_pos (x :: xs) ([] : List Val)
  unfold fullReplaceArr
  obtain ⟨g, hg⟩ : ∃ g, mfa (x :: xs) [] = g + 1 := ⟨mfa (x :: xs) [] - 1, by omega⟩
  rw [hg]
  rfl

theorem fullReplaceArr_cons (x y : Val) (xs ys : List Val) :
    fullReplaceArr (x :: xs) (y :: ys) =
      (fullReplaceValue (some x) (some y) || fullReplaceArr xs ys) := by
  have hp := mfa_pos (x :: xs) (y :: ys)
  have hv := mfv_lt_mfa_cons x y xs ys
  have ha := mfa_cons_lt x y xs ys
  unfold fullReplaceArr fullReplaceValue
  obtain ⟨g, hg⟩ : ∃ g, mfa (x :: xs) (y :: ys) = g + 1 :=
    ⟨mfa (x :: xs) (y :: ys) - 1, by omega⟩
  rw [hg]
  simp only [fraF]
  have e1 : frvF g (some x) (some y) = frvF (mfv (some x) (some y)) (some x) (some y) :=
    (frIrrel (g ⊔ mfv (some x) (some y))).1 g (mfv (some x) (some y)) _ _
      le_sup_right (by omega) (le_refl _)
  have e2 : fraF g xs ys = fraF (mfa xs ys) xs ys :=
    (frIrrel (g ⊔ mfa xs ys)).2.1 g (mfa xs ys) xs ys le_sup_right
      (by omega) (le_refl _)
  rw [e1, e2]

/-- Recursion equations of `fieldsCheck`. -/
theorem fieldsCheck_nil (fs gs : Fields) : fieldsCheck fs gs [] = false := by
  have hp := mfc_pos fs gs []
  unfold fieldsCheck
  obtain ⟨g, hg⟩ : ∃ g, mfc fs gs [] = g + 1 := ⟨mfc fs gs [] - 1, by omega⟩
  rw [hg]
  rfl

theorem fieldsCheck_cons (fs gs : Fields) (k : String) (ks : List String) :
    fieldsCheck fs gs (k :: ks) =
      ((if valueExempt fs gs && k = "value" then false
        else if streamingExempt fs gs && k = "streaming" then false
        else fullReplaceValue (lookupF fs k) (lookupF gs k)) ||
       fieldsCheck fs gs ks) := by
  have hp := mfc_pos fs gs (k :: ks)
  have hv := mfv_lookup_lt_mfc fs gs k (k :: ks)
  have hc := mfc_cons_lt fs gs k ks
  unfold fieldsCheck fullReplaceValue
  obtain ⟨g, hg⟩ : ∃ g, mfc fs gs (k :: ks) = g + 1 :=
    ⟨mfc fs gs (k :: ks) - 1, by omega⟩
  rw [hg]
  simp only [ffcF]
  have e1 : frvF g (lookupF fs k) (lookupF gs k) =
      frvF (mfv (lookupF fs k) (lookupF gs k)) (lookupF fs k) (lookupF gs k) :=
    (frIrrel (g ⊔ mfv (lookupF fs k) (lookupF gs k))).1 g _ _ _ le_sup_right
      (by omega) (le_refl _)
  have e2 : ffcF g fs gs ks = ffcF (mfc fs gs ks) fs gs ks :=
    (frIrrel (g ⊔ mfc fs gs ks)).2.2.1 g (mfc fs gs ks) fs gs ks le_sup_right
      (by omega) (le_refl _)
  rw [e1, e2]

/-- Recursion equation of `fullReplace`. -/
theorem fullReplace_eq (fs gs : Fields) :
    fullReplace fs gs =
      if lookupF fs "type" ≠ lookupF gs "type" ∨ lookupF fs "id" ≠ lookupF gs "id" ∨
          lookupF fs "key" ≠ lookupF gs "key" then true
      else fieldsCheck fs gs (unionKeys fs gs) := by
  have hp := mfr_pos fs gs
  have hu := mfc_union_lt_mfr fs gs
  unfold fullReplace fieldsCheck
  obtain ⟨g, hg⟩ : ∃ g, mfr fs gs = g + 1 := ⟨mfr fs gs - 1, by omega⟩
  rw [hg]
  simp only [frF]
  by_cases hc : lookupF fs "type" ≠ lookupF gs "type" ∨
      lookupF fs "id" ≠ lookupF gs "id" ∨ lookupF fs "key" ≠ lookupF gs "key"
  · simp [hc]
  · simp only [hc, if_false]
    exact (frIrrel (g ⊔ mfc fs gs (unionKeys fs gs))).2.2.1 g _ fs gs _
      le_sup_right (by omega) (le_refl _)

theorem refl_all :
    ∀ n : Nat,
      (∀ b : Option Val, mvalv b ≤ n → fullReplaceValue b b = false) ∧
      (∀ xs : List Val, vsizeL xs ≤ n → fullReplaceArr xs xs = false) := by
  intro n
  induction n using Nat.strong_induction_on with
  | _ n ih =>
    constructor
    · intro b hb
      rcases b with _ | v
      · rw [fullReplaceValue_other] <;> simp
      · cases v with
        | vArr xs =>
          rw [fullReplaceValue_arr]
          simp only [if_true, if_pos rfl]
          have hs : vsizeL xs < n := by
            simp [mvalv, vsize] at hb
            omega
          exact (ih (vsizeL xs) hs).2 xs (le_refl _)
        | vObj fs => rw [fullReplaceValue_obj]; simp
        | vStr s => rw [fullReplaceValue_other] <;> simp
        | vInt i => rw [fullReplaceValue_other] <;> simp
        | vBool c => rw [fullReplaceValue_other] <;> simp
        | vNull => rw [fullReplaceValue_other] <;> simp
    · intro xs hxs
      cases xs with
      | nil => exact fullReplaceArr_nil_left []
      | cons x xs' =>
        rw [fullReplaceArr_cons]
        have hx := vsize_pos x
        have hxs' := vsizeL_pos xs'
        simp only [vsizeL] at hxs
        have e1 : fullReplaceValue (some x) (some x) = false :=
          (ih (vsize x) (by omega)).1 (some x) (by simp [mvalv])
        have e2 : fullReplaceArr xs' xs' = false :=
          (ih (vsizeL xs') (by omega)).2 xs' (le_refl _)
        simp [e1, e2]

theorem fullReplaceValue_refl (b : Option Val) : fullReplaceValue b b = false :=
  (refl_all (mvalv b)).1 b (le_refl _)

theorem fullReplaceArr_refl (xs : List Val) : fullReplaceArr xs xs = false :=
  (refl_all (vsizeL xs)).2 xs (le_refl _)

theorem fieldsCheck_refl (fs : Fields) (ks : List String) :
    fieldsCheck fs fs ks = false := by
  induction ks with
  | nil => exact fieldsCheck_nil fs fs
  | cons k ks ih =>
    rw [fieldsCheck_cons]
    simp [ih, fullReplaceValue_refl]

theorem fullReplace_refl (fs : Fields) : fullReplace fs fs = false := by
  rw [fullReplace_eq]
  simp [fieldsCheck_refl]

/-- The `children` list that the text-collector walks (`comp.children ?? []`).
The typed widget API makes `children` an array; a non-array `children`
value (possible only through `Transition`, whose single-object `children`
would make the original `for … of` loop throw a `TypeError`) is outside
the modelled domain and rendered as the empty list. -/
def childrenOf (fs : Fields) : List Val :=
  match lookupF fs "children" with
  | some (Val.vArr xs) => xs
  | _ => []

theorem childrenOf_vsize_le (fs : Fields) : vsizeL (childrenOf fs) ≤ vsizeF fs := by
  have hpos := vsizeF_pos fs
  cases h : lookupF fs "children" with
  | none => simp [childrenOf, h, vsizeL]; omega
  | some v =>
    cases v with
    | vArr xs =>
      have h2 := lookupF_vsize h
      simp only [vsize] at h2
      simp [childrenOf, h]
      omega
    | vStr s => simp [childrenOf, h, vsizeL]; omega
    | vInt n => simp [childrenOf, h, vsizeL]; omega
    | vBool b => simp [childrenOf, h, vsizeL]; omega
    | vNull => simp [childrenOf, h, vsizeL]; omega
    | vObj gs => simp [childrenOf, h, vsizeL]; omega

/-- The record key under which a component is collected: its `id` field
when truthy.  The widget API types `id` as `string | null`; only string
ids are modelled. -/
def idOf (fs : Fields) : Option String :=
  match lookupF fs "id" with
  | some (Val.vStr s) => if s = "" then none else some s
  | _ => none

mutual

/-- The traversal list of `findAllStreamingTextComponents` (fueled):
every streaming-text node with a truthy `id`, in visit order (node
before its children). -/
def rcF : Nat → Fields → List (String × Fields)
  | 0, _ => []
  | fuel + 1, fs =>
    (if isStreamingTextN fs then
       match idOf fs with
       | some i => [(i, fs)]
       | none => []
     else []) ++ rclF fuel (childrenOf fs)

/-- Traversal of a `children` array (fueled); non-object entries carry
no streaming-text components. -/
def rclF : Nat → List Val → List (String × Fields)
  | 0, _ => []
  | _ + 1, [] => []
  | fuel + 1, Val.vObj fs :: rest => rcF fuel fs ++ rclF fuel rest
  | fuel + 1, _ :: rest => rclF fuel rest

end

/-- Fuel budget for `rcF`. -/
def mrc (fs : Fields) : Nat := 2 * vsizeF fs + 1

/-- Fuel budget for `rclF`. -/
def mrcl (xs : List Val) : Nat := 2 * vsizeL xs

/-- The traversal list of `findAllStreamingTextComponents`. -/
def rawCollect (fs : Fields) : List (String × Fields) := rcF (mrc fs) fs

/-- Traversal of a `children` array. -/
def rawCollectList (xs : List Val) : List (String × Fields) := rclF (mrcl xs) xs

theorem rcIrrel :
    ∀ m : Nat,
      (∀ f1 f2 fs, mrc fs ≤ m → mrc fs ≤ f1 → mrc fs ≤ f2 → rcF f1 fs = rcF f2 fs) ∧
      (∀ f1 f2 xs, mrcl xs ≤ m → mrcl xs ≤ f1 → mrcl xs ≤ f2 →
        rclF f1 xs = rclF f2 xs) := by
  intro m
  induction m using Nat.strong_induction_on with
  | _ m ih =>
    constructor
    · intro f1 f2 fs hm h1 h2
      have hp : 1 ≤ mrc fs := by unfold mrc; omega
      obtain ⟨g1, rfl⟩ : ∃ g, f1 = g + 1 := ⟨f1 - 1, by omega⟩
      obtain ⟨g2, rfl⟩ : ∃ g, f2 = g + 1 := ⟨f2 - 1, by omega⟩
      have hch := childrenOf_vsize_le fs
      simp only [rcF]
      have e : rclF g1 (childrenOf fs) = rclF g2 (childrenOf fs) :=
        (ih (mrcl (childrenOf fs)) (by simp [mrcl, mrc] at *; omega)).2 g1 g2 _
          (le_refl _) (by simp [mrcl, mrc] at *; omega)
          (by simp [mrcl, mrc] at *; omega)
      rw [e]
    · intro f1 f2 xs hm h1 h2
      have hpl := vsizeL_pos xs
      have hp : 1 ≤ mrcl xs := by unfold mrcl; omega
      obtain ⟨g1, rfl⟩ : ∃ g, f1 = g + 1 := ⟨f1 - 1, by omega⟩
      obtain ⟨g2, rfl⟩ : ∃ g, f2 = g + 1 := ⟨f2 - 1, by omega⟩
      cases xs with
      | nil => rfl
      | cons v rest =>
        have hrest : mrcl rest ≤ m ∧ mrcl rest ≤ g1 ∧ mrcl rest ≤ g2 := by
          have := vsize_pos v
          simp [mrcl, vsizeL] at *
          omega
        have e2 : rclF g1 rest = rclF g2 rest :=
          (ih (mrcl rest) (by
            have := vsize_pos v
            simp [mrcl, vsizeL] at *
            omega)).2 g1 g2 rest (le_refl _) hrest.2.1 hrest.2.2
        cases v with
        | vObj fs =>
          simp only [rclF]
          have e1 : rcF g1 fs = rcF g2 fs :=
            (ih (mrc fs) (by simp [mrc, mrcl, vsizeL, vsize] at *; omega)).1 g1 g2 fs
              (le_refl _) (by simp [mrc, mrcl, vsizeL, vsize] at *; omega)
              (by simp [mrc, mrcl, vsizeL, vsize] at *; omega)
          rw [e1, e2]
        | vStr s => simpa only [rclF] using e2
        | vInt n => simpa only [rclF] using e2
        | vBool b => simpa only [rclF] using e2
        | vNull => simpa only [rclF] using e2
        | vArr ys => simpa only [rclF] using e2

/-- Recursion equation of `rawCollect`. -/
theorem rawCollect_eq (fs : Fields) :
    rawCollect fs =
      (if isStreamingTextN fs then
         match idOf fs with
         | some i => [(i, fs)]
         | none => []
       else []) ++ rawCollectList (childrenOf fs) := by
  have hp : 1 ≤ mrc fs := by unfold mrc; omega
  have hch := childrenOf_vsize_le fs
  unfold rawCollect rawCollectList
  obtain ⟨g, hg⟩ : ∃ g, mrc fs = g + 1 := ⟨mrc fs - 1, by omega⟩
  rw [hg]
  simp only [rcF]
  have e : rclF g (childrenOf fs) = rclF (mrcl (childrenOf fs)) (childrenOf fs) :=
    (rcIrrel (g ⊔ mrcl (childrenOf fs))).2 g _ _ le_sup_right
      (by simp [mrcl, mrc] at *; omega) (le_refl _)
  rw [e]

/-- Recursion equations of `rawCollectList`. -/
theorem rawCollectList_nil : rawCollectList [] = [] := rfl

theorem rawCollectList_cons_obj (fs : Fields) (rest : List Val) :
    rawCollectList (Val.vObj fs :: rest) = rawCollect fs ++ rawCollectList rest := by
  have hp : 1 ≤ mrcl (Val.vObj fs :: rest) := by
    have := vsizeL_pos (Val.vObj fs :: rest)
    unfold mrcl; omega
  unfold rawCollectList rawCollect
  obtain ⟨g, hg⟩ : ∃ g, mrcl (Val.vObj fs :: rest) = g + 1 :=
    ⟨mrcl (Val.vObj fs :: rest) - 1, by omega⟩
  rw [hg]
  simp only [rclF]
  have hrest := vsizeL_pos rest
  have e1 : rcF g fs = rcF (mrc fs) fs :=
    (rcIrrel (g ⊔ mrc fs)).1 g _ _ le_sup_right
      (by simp [mrc, mrcl, vsizeL, vsize] at *; omega) (le_refl _)
  have e2 : rclF g rest = rclF (mrcl rest) rest :=
    (rcIrrel (g ⊔ mrcl rest)).2 g _ _ le_sup_right
      (by simp [mrc, mrcl, vsizeL, vsize] at *; omega) (le_refl _)
  rw [e1, e2]

theorem rawCollectList_cons_other (v : Val) (rest : List Val)
    (h : ∀ fs, v ≠ Val.vObj fs) :
    rawCollectList (v :: rest) = rawCollectList rest := by
  have hpv := vsize_pos v
  have hp : 1 ≤ mrcl (v :: rest) := by
    have := vsizeL_pos (v :: rest)
    unfold mrcl; omega
  unfold rawCollectList
  obtain ⟨g, hg⟩ : ∃ g, mrcl (v :: rest) = g + 1 := ⟨mrcl (v :: rest) - 1, by omega⟩
  rw [hg]
  have e2 : rclF g rest = rclF (mrcl rest) rest :=
    (rcIrrel (g ⊔ mrcl rest)).2 g _ _ le_sup_right
      (by simp [mrcl, vsizeL] at *; omega) (le_refl _)
  cases v with
  | vObj fs => exact absurd rfl (h fs)
  | vStr s => simpa only [rclF] using e2
  | vInt n => simpa only [rclF] using e2
  | vBool b => simpa only [rclF] using e2
  | vNull => simpa only [rclF] using e2
  | vArr ys => simpa only [rclF] using e2

/-- Assignment `components[id] = comp` on a JavaScript object: an
existing key keeps its position and takes the new value, a new key is
appended. -/
def upsert {α : Type} (m : List (String × α)) (k : String) (v : α) :
    List (String × α) :=
  if m.any (fun p => p.1 = k) then
    m.map (fun p => if p.1 = k then (k, v) else p)
  else m ++ [(k, v)]

/-- `findAllStreamingTextComponents`: the collected record, as its
`Object.entries` list. -/
def collectRecord (fs : Fields) : List (String × Fields) :=
  (rawCollect fs).foldl (fun m p => upsert m p.1 p.2) []

/-- Record lookup `record[id]`. -/
def lookupRec {α : Type} : List (String × α) → String → Option α
  | [], _ => none
  | (k, v) :: rest, key => if k = key then some v else lookupRec rest key

/-- The two exceptions `diffWidget` can throw. -/
inductive DiffError where
  | structural : String → DiffError
  | nonCumulative : String → DiffError
deriving DecidableEq

/-- Widget updates produced by `diffWidget` (`WidgetRootUpdated` and
`WidgetStreamingTextValueDelta` from `types.ts`). -/
inductive Delta where
  | rootUpdated : Fields → Delta
  | textDelta : (componentId : String) → (delta : String) → (done : Bool) → Delta
deriving DecidableEq

/-- The truthiness of a node's `streaming` field (used for the `done`
flag `!afterNode.streaming`). -/
def streamingFlag (fs : Fields) : Bool :=
  match lookupF fs "streaming" with
  | some v => truthy v
  | none => false

/-- JavaScript `s.slice(n)` on a string. -/
def strDropChars (s : String) (n : Nat) : String :=
  String.mk (s.data.drop n)

/-- The per-id loop of `diffWidget`: walk the entries of the `after`
collection, look each id up in the `before` collection, and emit a
streaming-text delta for every extended value. -/
def diffLoop (beforeNodes : List (String × Fields)) :
    List (String × Fields) → Except DiffError (List Delta)
  | [] => .ok []
  | (i, afterNode) :: rest =>
    match lookupRec beforeNodes i with
    | none => .error (.structural i)
    | some beforeNode =>
      let beforeValue := strValueOf beforeNode
      let afterValue := strValueOf afterNode
      if beforeValue = afterValue then diffLoop beforeNodes rest
      else if ¬ strStarts afterValue beforeValue then .error (.nonCumulative i)
      else
        match diffLoop beforeNodes rest with
        | .error e => .error e
        | .ok deltas =>
          .ok (Delta.textDelta i (strDropChars afterValue beforeValue.data.length)
                (! streamingFlag afterNode) :: deltas)

/-- `diffWidget` from `server.helper.ts`. -/
def diffWidget (before after : Fields) : Except DiffError (List Delta) :=
  if fullReplace before after then .ok [Delta.rootUpdated after]
  else diffLoop (collectRecord before) (collectRecord after)

/-!
## Families of snapshot pairs differing in one node

The universally quantified diff claims talk about pairs of snapshots
that are identical except for one text node.  We express such a pair as
a tree `fs`, a path of `children` indices leading to the target node,
and a field rewrite applied there (`updAt`).
-/

/-- Rewrite every binding of `key` to the value `v` (JavaScript
assignment to an existing property keeps its position). -/
def setKey (fs : Fields) (key : String) (v : Val) : Fields :=
  fs.map (fun p => if p.1 = key then (key, v) else p)

/-- Replace a node's `children` array. -/
def setChildren (fs : Fields) (xs : List Val) : Fields :=
  setKey fs "children" (Val.vArr xs)

/-- Append `suffix` to the string `value` of a node. -/
def extendValueF (suffix : String) (fs : Fields) : Fields :=
  fs.map (fun p =>
    match p with
    | ("value", Val.vStr s) => ("value", Val.vStr (s ++ suffix))
    | q => q)

/-- Apply `f` to the node reached by following `children` indices. -/
def updAt (fs : Fields) : List Nat → (Fields → Fields) → Fields
  | [], f => f fs
  | k :: rest, f =>
    match lookupF fs "children" with
    | some (Val.vArr xs) =>
      match xs[k]? with
      | some (Val.vObj gs) => setChildren fs (xs.set k (Val.vObj (updAt gs rest f)))
      | _ => fs
    | _ => fs

/-- The node reached by a `children` path. -/
def nodeAt (fs : Fields) : List Nat → Option Fields
  | [] => some fs
  | k :: rest =>
    match lookupF fs "children" with
    | some (Val.vArr xs) =>
      match xs[k]? with
      | some (Val.vObj gs) => nodeAt gs rest
      | _ => none
    | _ => none

/-- Path validity: every step goes through a `children` array into an
object node that carries a `type` field. -/
def pathOk (fs : Fields) : List Nat → Bool
  | [] => true
  | k :: rest =>
    match lookupF fs "children" with
    | some (Val.vArr xs) =>
      match xs[k]? with
      | some (Val.vObj gs) => (lookupF gs "type").isSome && pathOk gs rest
      | _ => false
    | _ => false

theorem lookupF_map_keydep (h : String → Val → Val) (fs : Fields) (k : String) :
    lookupF (fs.map (fun p => (p.1, h p.1 p.2))) k = (lookupF fs k).map (h k) := by
  induction fs with
  | nil => rfl
  | cons p rest ih =>
    obtain ⟨k1, v1⟩ := p
    by_cases h1 : k1 = k
    · subst h1
      simp [lookupF]
    · simp [lookupF, h1, ih]

theorem setKey_eq_map (fs : Fields) (key : String) (v : Val) :
    setKey fs key v = fs.map (fun p => (p.1, if p.1 = key then v else p.2)) := by
  induction fs with
  | nil => rfl
  | cons p rest ih =>
    obtain ⟨k1, v1⟩ := p
    by_cases h1 : k1 = key
    · subst h1
      simp [setKey] at *
      exact ih
    · simp [setKey, h1] at *
      exact ih

theorem lookupF_setKey (fs : Fields) (key : String) (v : Val) (k : String) :
    lookupF (setKey fs key v) k =
      (lookupF fs k).map (fun w => if k = key then v else w) := by
  rw [setKey_eq_map]
  exact lookupF_map_keydep (fun a b => if a = key then v else b) fs k

theorem lookupF_setKey_ne (fs : Fields) (key : String) (v : Val) (k : String)
    (h : k ≠ key) : lookupF (setKey fs key v) k = lookupF fs k := by
  rw [lookupF_setKey]
  cases lookupF fs k <;> simp [h]

theorem lookupF_setKey_self (fs : Fields) (key : String) (v : Val) :
    lookupF (setKey fs key v) key = (lookupF fs key).map (fun _ => v) := by
  rw [lookupF_setKey]
  cases lookupF fs key <;> simp

/-- The value rewrite of `extendValueF`, as a function of the old value. -/
def extVal (suffix : String) : Val → Val
  | Val.vStr s => Val.vStr (s ++ suffix)
  | w => w

theorem extendValueF_eq_map (suffix : String) (fs : Fields) :
    extendValueF suffix fs =
      fs.map (fun p => (p.1, if p.1 = "value" then extVal suffix p.2 else p.2)) := by
  induction fs with
  | nil => rfl
  | cons p rest ih =>
    obtain ⟨k1, v1⟩ := p
    by_cases h1 : k1 = "value"
    · subst h1
      cases v1 <;> (simp [extendValueF, extVal] at *; exact ih)
    · cases v1 <;> (simp [extendValueF, extVal, h1] at *; exact ih)

theorem lookupF_extendValueF (suffix : String) (fs : Fields) (k : String) :
    lookupF (extendValueF suffix fs) k =
      (lookupF fs k).map (fun w => if k = "value" then extVal suffix w else w) := by
  rw [extendValueF_eq_map]
  exact lookupF_map_keydep (fun a b => if a = "value" then extVal suffix b else b) fs k

theorem lookupF_extendValueF_ne (suffix : String) (fs : Fields) (k : String)
    (h : k ≠ "value") : lookupF (extendValueF suffix fs) k = lookupF fs k := by
  rw [lookupF_extendValueF]
  cases lookupF fs k <;> simp [h]

theorem lookupF_extendValueF_value (suffix : String) (fs : Fields) :
    lookupF (extendValueF suffix fs) "value" =
      (lookupF fs "value").map (extVal suffix) := by
  rw [lookupF_extendValueF]
  cases lookupF fs "value" <;> simp

theorem isStreamingTextN_spec (t : Fields) (h : isStreamingTextN t = true) :
    lookupF t "type" = some (Val.vStr "Text") ∧
      ∃ s, lookupF t "value" = some (Val.vStr s) := by
  unfold isStreamingTextN at h
  constructor
  · cases ht : lookupF t "type" with
    | none => rw [ht] at h; simp at h
    | some v =>
      cases v <;> rw [ht] at h <;> simp at h
      rename_i s
      simp [h.1]
  · cases hv : lookupF t "value" with
    | none => rw [hv] at h; simp at h
    | some v =>
      cases v <;> rw [hv] at h <;> simp at h
      rename_i s
      exact ⟨s, rfl⟩

theorem strValueOf_of_lookup {t : Fields} {s : String}
    (h : lookupF t "value" = some (Val.vStr s)) : strValueOf t = s := by
  simp [strValueOf, h]

theorem strStarts_append (a b : String) : strStarts (a ++ b) a = true := by
  have : (a ++ b).data = a.data ++ b.data := String.data_append a b
  simp [strStarts, this, List.isPrefixOf_iff_prefix]

theorem fieldsCheck_of_forall_false (fs gs : Fields)
    (h : ∀ k, (if valueExempt fs gs && k = "value" then false
               else if streamingExempt fs gs && k = "streaming" then false
               else fullReplaceValue (lookupF fs k) (lookupF gs k)) = false) :
    ∀ ks, fieldsCheck fs gs ks = false := by
  intro ks
  induction ks with
  | nil => exact fieldsCheck_nil fs gs
  | cons k ks ih =>
    rw [fieldsCheck_cons, h k, ih]
    rfl

theorem fieldsCheck_of_mem_true (fs gs : Fields) (k : String)
    (h : (if valueExempt fs gs && k = "value" then false
          else if streamingExempt fs gs && k = "streaming" then false
          else fullReplaceValue (lookupF fs k) (lookupF gs k)) = true) :
    ∀ ks, k ∈ ks → fieldsCheck fs gs ks = true := by
  intro ks hk
  induction ks with
  | nil => simp at hk
  | cons k1 ks ih =>
    rw [fieldsCheck_cons]
    rcases List.mem_cons.mp hk with h1 | h1
    · subst h1
      rw [h]
      simp
    · rw [ih h1]
      simp

theorem lookupF_mem_keys {fs : Fields} {k : String} {v : Val}
    (h : lookupF fs k = some v) : k ∈ fs.map Prod.fst := by
  induction fs with
  | nil => simp [lookupF] at h
  | cons p rest ih =>
    obtain ⟨k1, v1⟩ := p
    by_cases h1 : k1 = k
    · subst h1; simp
    · simp [lookupF, h1] at h
      simp [ih h]

theorem mem_dedupAux (l : List String) :
    ∀ seen a, a ∈ dedupAux seen l ↔ (a ∈ l ∧ a ∉ seen) := by
  induction l with
  | nil => intro seen a; simp [dedupAux]
  | cons k ks ih =>
    intro seen a
    by_cases hk : k ∈ seen
    · rw [dedupAux, if_pos hk, ih]
      constructor
      · rintro ⟨h1, h2⟩
        exact ⟨List.mem_cons_of_mem _ h1, h2⟩
      · rintro ⟨h1, h2⟩
        rcases List.mem_cons.mp h1 with rfl | h1
        · exact absurd hk h2
        · exact ⟨h1, h2⟩
    · rw [dedupAux, if_neg hk]
      constructor
      · intro h1
        rcases List.mem_cons.mp h1 with rfl | h1
        · exact ⟨List.mem_cons_self _ _, hk⟩
        · rw [ih] at h1
          refine ⟨List.mem_cons_of_mem _ h1.1, ?_⟩
          intro hcon
          exact h1.2 (List.mem_cons_of_mem _ hcon)
      · rintro ⟨h1, h2⟩
        rcases List.mem_cons.mp h1 with rfl | h1
        · exact List.mem_cons_self _ _
        · by_cases ha : a = k
          · subst ha; exact List.mem_cons_self _ _
          · refine List.mem_cons_of_mem _ ?_
            rw [ih]
            refine ⟨h1, ?_⟩
            intro hcon
            rcases List.mem_cons.mp hcon with h3 | h3
            · exact ha h3
            · exact h2 h3

theorem mem_unionKeys_left {fs gs : Fields} {k : String}
    (h : k ∈ fs.map Prod.fst) : k ∈ unionKeys fs gs := by
  rw [unionKeys, mem_dedupAux]
  exact ⟨List.mem_append_left _ h, by simp⟩

theorem isStreamingTextN_setKey_streaming (t : Fields) (v : Val) :
    isStreamingTextN (setKey t "streaming" v) = isStreamingTextN t := by
  unfold isStreamingTextN
  rw [lookupF_setKey_ne t _ v "type" (by decide),
      lookupF_setKey_ne t _ v "value" (by decide)]

theorem isStreamingTextN_extendValueF (suffix : String) (t : Fields) :
    isStreamingTextN (extendValueF suffix t) = isStreamingTextN t := by
  unfold isStreamingTextN
  rw [lookupF_extendValueF_ne suffix t "type" (by decide),
      lookupF_extendValueF_value]
  cases hv : lookupF t "value" with
  | none => simp
  | some v => cases v <;> simp [extVal]

theorem isStreamingTextN_setKey_value_str (t : Fields) (w : String)
    (h : isStreamingTextN t = true) :
    isStreamingTextN (setKey t "value" (Val.vStr w)) = true := by
  obtain ⟨htype, s, hval⟩ := isStreamingTextN_spec t h
  unfold isStreamingTextN
  rw [lookupF_setKey_ne t _ _ "type" (by decide), htype, lookupF_setKey_self, hval]
  simp

/-- A streaming-flag rewrite on a streaming-text node never forces a
replace: the `streaming` key is exempt and every other field is
unchanged. -/
theorem fullReplace_setKey_streaming (t : Fields) (v : Val)
    (h : isStreamingTextN t = true) :
    fullReplace t (setKey t "streaming" v) = false := by
  have h1 : lookupF (setKey t "streaming" v) "type" = lookupF t "type" :=
    lookupF_setKey_ne t _ v "type" (by decide)
  have h2 : lookupF (setKey t "streaming" v) "id" = lookupF t "id" :=
    lookupF_setKey_ne t _ v "id" (by decide)
  have h3 : lookupF (setKey t "streaming" v) "key" = lookupF t "key" :=
    lookupF_setKey_ne t _ v "key" (by decide)
  rw [fullReplace_eq, if_neg (by simp [h1, h2, h3])]
  apply fieldsCheck_of_forall_false
  intro k
  by_cases hk : k = "streaming"
  · subst hk
    have hse : streamingExempt t (setKey t "streaming" v) = true := by
      simp [streamingExempt, isStreamingTextN_setKey_streaming, h]
    simp [hse]
  · have hl : lookupF (setKey t "streaming" v) k = lookupF t k :=
      lookupF_setKey_ne t _ v k hk
    rw [hl]
    by_cases g1 : valueExempt t (setKey t "streaming" v) && k = "value" <;>
      by_cases g2 : streamingExempt t (setKey t "streaming" v) && k = "streaming" <;>
        simp [g1, g2, fullReplaceValue_refl]

/-- A cumulative value extension on a streaming-text node never forces
a replace: the `value` key falls under the prefix exemption. -/
theorem fullReplace_extendValueF (suffix : String) (t : Fields)
    (h : isStreamingTextN t = true) :
    fullReplace t (extendValueF suffix t) = false := by
  obtain ⟨htype, s, hval⟩ := isStreamingTextN_spec t h
  have h1 : lookupF (extendValueF suffix t) "type" = lookupF t "type" :=
    lookupF_extendValueF_ne suffix t "type" (by decide)
  have h2 : lookupF (extendValueF suffix t) "id" = lookupF t "id" :=
    lookupF_extendValueF_ne suffix t "id" (by decide)
  have h3 : lookupF (extendValueF suffix t) "key" = lookupF t "key" :=
    lookupF_extendValueF_ne suffix t "key" (by decide)
  have hstream : isStreamingTextN (extendValueF suffix t) = true := by
    rw [isStreamingTextN_extendValueF]; exact h
  have hvalue : strValueOf (extendValueF suffix t) = s ++ suffix := by
    apply strValueOf_of_lookup
    rw [lookupF_extendValueF_value, hval]
    rfl
  have hve : valueExempt t (extendValueF suffix t) = true := by
    simp [valueExempt, h, hstream, hvalue, strValueOf_of_lookup hval,
      strStarts_append]
  rw [fullReplace_eq, if_neg (by simp [h1, h2, h3])]
  apply fieldsCheck_of_forall_false
  intro k
  by_cases hk : k = "value"
  · subst hk
    simp [hve]
  · by_cases hk2 : k = "streaming"
    · subst hk2
      have hse : streamingExempt t (extendValueF suffix t) = true := by
        simp [streamingExempt, h, hstream]
      simp [hse]
    · have hl : lookupF (extendValueF suffix t) k = lookupF t k :=
        lookupF_extendValueF_ne suffix t k hk
      rw [hl]
      by_cases g1 : valueExempt t (extendValueF suffix t) && k = "value" <;>
        by_cases g2 : streamingExempt t (extendValueF suffix t) && k = "streaming" <;>
          simp [g1, g2, fullReplaceValue_refl]

/-- A non-cumulative value rewrite on a streaming-text node forces a
replace: the prefix exemption fails and the values differ. -/
theorem fullReplace_setKey_value_regress (t : Fields) (w : String)
    (h : isStreamingTextN t = true) (hne : w ≠ strValueOf t)
    (hnp : strStarts w (strValueOf t) = false) :
    fullReplace t (setKey t "value" (Val.vStr w)) = true := by
  obtain ⟨htype, s, hval⟩ := isStreamingTextN_spec t h
  rw [fullReplace_eq]
  by_cases hc : lookupF t "type" ≠ lookupF (setKey t "value" (Val.vStr w)) "type" ∨
      lookupF t "id" ≠ lookupF (setKey t "value" (Val.vStr w)) "id" ∨
      lookupF t "key" ≠ lookupF (setKey t "value" (Val.vStr w)) "key"
  · rw [if_pos hc]
  · rw [if_neg hc]
    have hvw : lookupF (setKey t "value" (Val.vStr w)) "value" = some (Val.vStr w) := by
      rw [lookupF_setKey_self, hval]
      rfl
    have hsw : strValueOf (setKey t "value" (Val.vStr w)) = w :=
      strValueOf_of_lookup hvw
    have hve : valueExempt t (setKey t "value" (Val.vStr w)) = false := by
      simp [valueExempt, hsw, strValueOf_of_lookup hval]
      intro _ _
      rw [strValueOf_of_lookup hval] at hnp
      exact hnp
    apply fieldsCheck_of_mem_true t _ "value"
    · rw [hvw, hval]
      have hfrv : fullReplaceValue (some (Val.vStr s)) (some (Val.vStr w)) = true := by
        rw [fullReplaceValue_other]
        · have : s ≠ w := by
            intro hcon
            apply hne
            rw [strValueOf_of_lookup hval, hcon]
          simp [this]
        · intro xs ys hcon
          exact absurd hcon.1 (by simp)
        · intro fs2 gs2 hcon
          exact absurd hcon.1 (by simp)
      simp [hve, hfrv]
    · exact mem_unionKeys_left (lookupF_mem_keys hval)

theorem fullReplaceArr_set_false :
    ∀ (xs : List Val) (k : Nat) (x v : Val), xs[k]? = some x →
      fullReplaceValue (some x) (some v) = false →
      fullReplaceArr xs (xs.set k v) = false := by
  intro xs
  induction xs with
  | nil => intro k x v h; simp at h
  | cons y ys ih =>
    intro k x v h hfv
    cases k with
    | zero =>
      simp at h
      subst h
      rw [List.set_cons_zero, fullReplaceArr_cons, hfv, fullReplaceArr_refl]
      rfl
    | succ k =>
      simp at h
      rw [List.set_cons_succ, fullReplaceArr_cons, fullReplaceValue_refl,
        ih k x v h hfv]
      rfl

theorem fullReplaceArr_set_true :
    ∀ (xs : List Val) (k : Nat) (x v : Val), xs[k]? = some x →
      fullReplaceValue (some x) (some v) = true →
      fullReplaceArr xs (xs.set k v) = true := by
  intro xs
  induction xs with
  | nil => intro k x v h; simp at h
  | cons y ys ih =>
    intro k x v h hfv
    cases k with
    | zero =>
      simp at h
      subst h
      rw [List.set_cons_zero, fullReplaceArr_cons, hfv]
      rfl
    | succ k =>
      simp at h
      rw [List.set_cons_succ, fullReplaceArr_cons, ih k x v h hfv]
      simp

theorem updAt_cons_eq {fs : Fields} {k0 : Nat} {xs : List Val} {gs : Fields}
    (hch : lookupF fs "children" = some (Val.vArr xs))
    (hel : xs[k0]? = some (Val.vObj gs)) (rest : List Nat) (f : Fields → Fields) :
    updAt fs (k0 :: rest) f = setChildren fs (xs.set k0 (Val.vObj (updAt gs rest f))) := by
  simp only [updAt, hch, hel]

theorem nodeAt_cons_eq {fs : Fields} {k0 : Nat} {xs : List Val} {gs : Fields}
    (hch : lookupF fs "children" = some (Val.vArr xs))
    (hel : xs[k0]? = some (Val.vObj gs)) (rest : List Nat) :
    nodeAt fs (k0 :: rest) = nodeAt gs rest := by
  simp only [nodeAt, hch, hel]

theorem pathOk_cons_elim {fs : Fields} {k0 : Nat} {rest : List Nat}
    (hp : pathOk fs (k0 :: rest) = true) :
    ∃ xs gs, lookupF fs "children" = some (Val.vArr xs) ∧
      xs[k0]? = some (Val.vObj gs) ∧
      (lookupF gs "type").isSome = true ∧ pathOk gs rest = true := by
  cases hch : lookupF fs "children" with
  | none => simp only [pathOk, hch] at hp; exact absurd hp Bool.false_ne_true
  | some v =>
    cases v with
    | vArr xs =>
      cases hel : xs[k0]? with
      | none => simp only [pathOk, hch, hel] at hp; exact absurd hp Bool.false_ne_true
      | some x =>
        cases x with
        | vObj gs =>
          simp only [pathOk, hch, hel, Bool.and_eq_true] at hp
          exact ⟨xs, gs, rfl, hel, hp.1, hp.2⟩
        | vStr s => simp only [pathOk, hch, hel] at hp; exact absurd hp Bool.false_ne_true
        | vInt n => simp only [pathOk, hch, hel] at hp; exact absurd hp Bool.false_ne_true
        | vBool b => simp only [pathOk, hch, hel] at hp; exact absurd hp Bool.false_ne_true
        | vNull => simp only [pathOk, hch, hel] at hp; exact absurd hp Bool.false_ne_true
        | vArr ys => simp only [pathOk, hch, hel] at hp; exact absurd hp Bool.false_ne_true
    | vStr s => simp only [pathOk, hch] at hp; exact absurd hp Bool.false_ne_true
    | vInt n => simp only [pathOk, hch] at hp; exact absurd hp Bool.false_ne_true
    | vBool b => simp only [pathOk, hch] at hp; exact absurd hp Bool.false_ne_true
    | vNull => simp only [pathOk, hch] at hp; exact absurd hp Bool.false_ne_true
    | vObj gs => simp only [pathOk, hch] at hp; exact absurd hp Bool.false_ne_true

theorem nodeAt_cons_elim {fs : Fields} {k0 : Nat} {rest : List Nat} {t : Fields}
    (hn : nodeAt fs (k0 :: rest) = some t) :
    ∃ xs gs, lookupF fs "children" = some (Val.vArr xs) ∧
      xs[k0]? = some (Val.vObj gs) ∧ nodeAt gs rest = some t := by
  cases hch : lookupF fs "children" with
  | none => simp only [nodeAt, hch] at hn; exact Option.noConfusion hn
  | some v =>
    cases v with
    | vArr xs =>
      cases hel : xs[k0]? with
      | none => simp only [nodeAt, hch, hel] at hn; exact Option.noConfusion hn
      | some x =>
        cases x with
        | vObj gs =>
          simp only [nodeAt, hch, hel] at hn
          exact ⟨xs, gs, rfl, hel, hn⟩
        | vStr s => simp only [nodeAt, hch, hel] at hn; exact Option.noConfusion hn
        | vInt n => simp only [nodeAt, hch, hel] at hn; exact Option.noConfusion hn
        | vBool b => simp only [nodeAt, hch, hel] at hn; exact Option.noConfusion hn
        | vNull => simp only [nodeAt, hch, hel] at hn; exact Option.noConfusion hn
        | vArr ys => simp only [nodeAt, hch, hel] at hn; exact Option.noConfusion hn
    | vStr s => simp only [nodeAt, hch] at hn; exact Option.noConfusion hn
    | vInt n => simp only [nodeAt, hch] at hn; exact Option.noConfusion hn
    | vBool b => simp only [nodeAt, hch] at hn; exact Option.noConfusion hn
    | vNull => simp only [nodeAt, hch] at hn; exact Option.noConfusion hn
    | vObj gs => simp only [nodeAt, hch] at hn; exact Option.noConfusion hn

theorem updAt_lookup_pres :
    ∀ (p : List Nat) (fs : Fields) (f : Fields → Fields) (t : Fields) (k : String),
      k ≠ "children" → nodeAt fs p = some t → lookupF (f t) k = lookupF t k →
      lookupF (updAt fs p f) k = lookupF fs k := by
  intro p
  induction p with
  | nil =>
    intro fs f t k hk hn hf
    simp [nodeAt] at hn
    subst hn
    exact hf
  | cons k0 rest ih =>
    intro fs f t k hk hn hf
    obtain ⟨xs, gs, hch, hel, hn2⟩ := nodeAt_cons_elim hn
    rw [updAt_cons_eq hch hel rest f]
    exact lookupF_setKey_ne fs "children" _ k hk

theorem fullReplace_updAt_false :
    ∀ (p : List Nat) (fs : Fields) (f : Fields → Fields) (t : Fields),
      pathOk fs p = true → nodeAt fs p = some t →
      fullReplace t (f t) = false →
      lookupF (f t) "type" = lookupF t "type" →
      lookupF (f t) "id" = lookupF t "id" →
      lookupF (f t) "key" = lookupF t "key" →
      fullReplace fs (updAt fs p f) = false := by
  intro p
  induction p with
  | nil =>
    intro fs f t hp hn h1 h2 h3 h4
    simp [nodeAt] at hn
    subst hn
    exact h1
  | cons k0 rest ih =>
    intro fs f t hp hn h1 h2 h3 h4
    obtain ⟨xs, gs, hch, hel, hty, hpr⟩ := pathOk_cons_elim hp
    rw [nodeAt_cons_eq hch hel rest] at hn
    have hu : fullReplace gs (updAt gs rest f) = false :=
      ih gs f t hpr hn h1 h2 h3 h4
    have hut : lookupF (updAt gs rest f) "type" = lookupF gs "type" :=
      updAt_lookup_pres rest gs f t "type" (by decide) hn h2
    rw [updAt_cons_eq hch hel rest f]
    have ha1 : lookupF (setChildren fs (xs.set k0 (Val.vObj (updAt gs rest f)))) "type" =
        lookupF fs "type" := lookupF_setKey_ne fs "children" _ "type" (by decide)
    have ha2 : lookupF (setChildren fs (xs.set k0 (Val.vObj (updAt gs rest f)))) "id" =
        lookupF fs "id" := lookupF_setKey_ne fs "children" _ "id" (by decide)
    have ha3 : lookupF (setChildren fs (xs.set k0 (Val.vObj (updAt gs rest f)))) "key" =
        lookupF fs "key" := lookupF_setKey_ne fs "children" _ "key" (by decide)
    rw [fullReplace_eq, if_neg (by simp [ha1, ha2, ha3])]
    apply fieldsCheck_of_forall_false
    intro k
    by_cases hk : k = "children"
    · subst hk
      have hlch : lookupF (setChildren fs (xs.set k0 (Val.vObj (updAt gs rest f)))) "children" =
          some (Val.vArr (xs.set k0 (Val.vObj (updAt gs rest f)))) := by
        unfold setChildren
        rw [lookupF_setKey_self, hch]
        rfl
      have hfrv : fullReplaceValue (some (Val.vObj gs))
          (some (Val.vObj (updAt gs rest f))) = false := by
        rw [fullReplaceValue_obj]
        by_cases heq : Val.vObj gs = Val.vObj (updAt gs rest f)
        · rw [if_pos heq]
        · rw [if_neg heq, if_pos (by simp [hut]; exact hty), hu]
      have harr : fullReplaceArr xs (xs.set k0 (Val.vObj (updAt gs rest f))) = false :=
        fullReplaceArr_set_false xs k0 _ _ hel hfrv
      have hlen : xs.length = (xs.set k0 (Val.vObj (updAt gs rest f))).length := by simp
      rw [hlch, hch, fullReplaceValue_arr, if_pos hlen, harr]
      simp
    · have hl : lookupF (setChildren fs (xs.set k0 (Val.vObj (updAt gs rest f)))) k =
          lookupF fs k := lookupF_setKey_ne fs "children" _ k hk
      rw [hl]
      by_cases g1 : valueExempt fs (setChildren fs (xs.set k0 (Val.vObj (updAt gs rest f)))) && k = "value" <;>
        by_cases g2 : streamingExempt fs (setChildren fs (xs.set k0 (Val.vObj (updAt gs rest f)))) && k = "streaming" <;>
          simp [g1, g2, fullReplaceValue_refl]

theorem fullReplace_updAt_true :
    ∀ (p : List Nat) (fs : Fields) (f : Fields → Fields) (t : Fields),
      pathOk fs p = true → nodeAt fs p = some t →
      fullReplace t (f t) = true →
      lookupF (f t) "type" = lookupF t "type" →
      fullReplace fs (updAt fs p f) = true := by
  intro p
  induction p with
  | nil =>
    intro fs f t hp hn h1 h2
    simp [nodeAt] at hn
    subst hn
    exact h1
  | cons k0 rest ih =>
    intro fs f t hp hn h1 h2
    obtain ⟨xs, gs, hch, hel, hty, hpr⟩ := pathOk_cons_elim hp
    rw [nodeAt_cons_eq hch hel rest] at hn
    have hu : fullReplace gs (updAt gs rest f) = true :=
      ih gs f t hpr hn h1 h2
    have hut : lookupF (updAt gs rest f) "type" = lookupF gs "type" :=
      updAt_lookup_pres rest gs f t "type" (by decide) hn h2
    rw [updAt_cons_eq hch hel rest f]
    rw [fullReplace_eq]
    by_cases hc : lookupF fs "type" ≠
        lookupF (setChildren fs (xs.set k0 (Val.vObj (updAt gs rest f)))) "type" ∨
        lookupF fs "id" ≠
        lookupF (setChildren fs (xs.set k0 (Val.vObj (updAt gs rest f)))) "id" ∨
        lookupF fs "key" ≠
        lookupF (setChildren fs (xs.set k0 (Val.vObj (updAt gs rest f)))) "key"
    · rw [if_pos hc]
    · rw [if_neg hc]
      have hlch : lookupF (setChildren fs (xs.set k0 (Val.vObj (updAt gs rest f)))) "children" =
          some (Val.vArr (xs.set k0 (Val.vObj (updAt gs rest f)))) := by
        unfold setChildren
        rw [lookupF_setKey_self, hch]
        rfl
      have hfrv : fullReplaceValue (some (Val.vObj gs))
          (some (Val.vObj (updAt gs rest f))) = true := by
        rw [fullReplaceValue_obj]
        by_cases heq : Val.vObj gs = Val.vObj (updAt gs rest f)
        · exfalso
          have hgu : gs = updAt gs rest f := by injection heq
          rw [← hgu, fullReplace_refl gs] at hu
          exact Bool.false_ne_true hu
        · rw [if_neg heq, if_pos (by simp [hut]; exact hty), hu]
      have harr : fullReplaceArr xs (xs.set k0 (Val.vObj (updAt gs rest f))) = true :=
        fullReplaceArr_set_true xs k0 _ _ hel hfrv
      apply fieldsCheck_of_mem_true fs _ "children"
      · have hlen : xs.length = (xs.set k0 (Val.vObj (updAt gs rest f))).length := by simp
        rw [hlch, hch, fullReplaceValue_arr, if_pos hlen, harr]
        simp
      · exact mem_unionKeys_left (lookupF_mem_keys hch)

/-- The entry a single node contributes to the collector before its
children are visited. -/
def entryOf (fs : Fields) : List (String × Fields) :=
  if isStreamingTextN fs then
    match idOf fs with
    | some i => [(i, fs)]
    | none => []
  else []

theorem rawCollect_eq_entry (fs : Fields) :
    rawCollect fs = entryOf fs ++ rawCollectList (childrenOf fs) := by
  rw [rawCollect_eq]
  rfl

theorem childrenOf_eq_of_lookup {fs : Fields} {xs : List Val}
    (h : lookupF fs "children" = some (Val.vArr xs)) : childrenOf fs = xs := by
  unfold childrenOf
  rw [h]

theorem isStreamingTextN_setKey_ne (t : Fields) (key : String) (v : Val)
    (h1 : key ≠ "type") (h2 : key ≠ "value") :
    isStreamingTextN (setKey t key v) = isStreamingTextN t := by
  unfold isStreamingTextN
  rw [lookupF_setKey_ne t key v "type" (Ne.symm h1),
    lookupF_setKey_ne t key v "value" (Ne.symm h2)]

theorem idOf_setKey_ne (t : Fields) (key : String) (v : Val)
    (h : key ≠ "id") : idOf (setKey t key v) = idOf t := by
  unfold idOf
  rw [lookupF_setKey_ne t key v "id" (Ne.symm h)]

theorem strValueOf_setKey_ne (t : Fields) (key : String) (v : Val)
    (h : key ≠ "value") : strValueOf (setKey t key v) = strValueOf t := by
  unfold strValueOf
  rw [lookupF_setKey_ne t key v "value" (Ne.symm h)]

theorem streamingFlag_setKey_ne (t : Fields) (key : String) (v : Val)
    (h : key ≠ "streaming") : streamingFlag (setKey t key v) = streamingFlag t := by
  unfold streamingFlag
  rw [lookupF_setKey_ne t key v "streaming" (Ne.symm h)]

theorem childrenOf_setKey_ne (t : Fields) (key : String) (v : Val)
    (h : key ≠ "children") : childrenOf (setKey t key v) = childrenOf t := by
  unfold childrenOf
  rw [lookupF_setKey_ne t key v "children" (Ne.symm h)]

theorem childrenOf_setChildren (fs : Fields) (ys : List Val) {w : Val}
    (h : lookupF fs "children" = some w) :
    childrenOf (setChildren fs ys) = ys := by
  unfold childrenOf setChildren
  rw [lookupF_setKey_self, h]
  rfl

theorem idOf_extendValueF (suffix : String) (t : Fields) :
    idOf (extendValueF suffix t) = idOf t := by
  unfold idOf
  rw [lookupF_extendValueF_ne suffix t "id" (by decide)]

theorem childrenOf_extendValueF (suffix : String) (t : Fields) :
    childrenOf (extendValueF suffix t) = childrenOf t := by
  unfold childrenOf
  rw [lookupF_extendValueF_ne suffix t "children" (by decide)]

theorem streamingFlag_extendValueF (suffix : String) (t : Fields) :
    streamingFlag (extendValueF suffix t) = streamingFlag t := by
  unfold streamingFlag
  rw [lookupF_extendValueF_ne suffix t "streaming" (by decide)]

theorem strValueOf_extendValueF (suffix : String) (t : Fields)
    (h : isStreamingTextN t = true) :
    strValueOf (extendValueF suffix t) = strValueOf t ++ suffix := by
  obtain ⟨htype, s, hval⟩ := isStreamingTextN_spec t h
  rw [strValueOf_of_lookup hval]
  apply strValueOf_of_lookup
  rw [lookupF_extendValueF_value, hval]
  rfl

/-- Entry correspondence for untouched or ancestor nodes of a one-node
change: same id, and the `value` and `streaming` fields the differ
reads are unchanged. -/
def entrySim (b a : String × Fields) : Prop :=
  b.1 = a.1 ∧ strValueOf a.2 = strValueOf b.2 ∧ streamingFlag a.2 = streamingFlag b.2

theorem entrySim_refl (b : String × Fields) : entrySim b b := ⟨rfl, rfl, rfl⟩

theorem entryOf_congr (u g : Fields)
    (h1 : isStreamingTextN g = isStreamingTextN u) (h2 : idOf g = idOf u) :
    entryOf g = (entryOf u).map (fun q => (q.1, g)) := by
  unfold entryOf
  rw [h1, h2]
  cases isStreamingTextN u with
  | false => simp
  | true =>
    cases idOf u with
    | none => simp
    | some i => simp

theorem entryOf_sim (u g : Fields) (hv : strValueOf g = strValueOf u)
    (hs : streamingFlag g = streamingFlag u) :
    List.Forall₂ entrySim (entryOf u) ((entryOf u).map (fun q => (q.1, g))) := by
  unfold entryOf
  cases isStreamingTextN u with
  | false => simp
  | true =>
    cases idOf u with
    | none => simp
    | some i =>
      simp only [List.map_cons, List.map_nil]
      exact List.Forall₂.cons ⟨rfl, hv, hs⟩ List.Forall₂.nil

theorem forall₂_entrySim_same (L : List (String × Fields)) :
    List.Forall₂ entrySim L L :=
  List.forall₂_same.mpr (fun b _ => entrySim_refl b)

theorem rawCollectList_set_obj :
    ∀ (xs : List Val) (k : Nat) (gs u : Fields),
      xs[k]? = some (Val.vObj gs) →
      ∃ P Q, rawCollectList xs = P ++ rawCollect gs ++ Q ∧
        rawCollectList (xs.set k (Val.vObj u)) = P ++ rawCollect u ++ Q := by
  intro xs
  induction xs with
  | nil => intro k gs u h; simp at h
  | cons v rest ih =>
    intro k gs u h
    cases k with
    | zero =>
      simp at h
      subst h
      refine ⟨[], rawCollectList rest, ?_, ?_⟩
      · rw [rawCollectList_cons_obj]
        simp
      · rw [List.set_cons_zero, rawCollectList_cons_obj]
        simp
    | succ k =>
      simp at h
      obtain ⟨P, Q, h1, h2⟩ := ih k gs u h
      cases v with
      | vObj fs2 =>
        refine ⟨rawCollect fs2 ++ P, Q, ?_, ?_⟩
        · rw [rawCollectList_cons_obj, h1]
          simp
        · rw [List.set_cons_succ, rawCollectList_cons_obj, h2]
          simp
      | vStr s =>
        refine ⟨P, Q, ?_, ?_⟩
        · rw [rawCollectList_cons_other _ _ (fun fs hne => Val.noConfusion hne), h1]
        · rw [List.set_cons_succ,
            rawCollectList_cons_other _ _ (fun fs hne => Val.noConfusion hne), h2]
      | vInt n =>
        refine ⟨P, Q, ?_, ?_⟩
        · rw [rawCollectList_cons_other _ _ (fun fs hne => Val.noConfusion hne), h1]
        · rw [List.set_cons_succ,
            rawCollectList_cons_other _ _ (fun fs hne => Val.noConfusion hne), h2]
      | vBool b =>
        refine ⟨P, Q, ?_, ?_⟩
        · rw [rawCollectList_cons_other _ _ (fun fs hne => Val.noConfusion hne), h1]
        · rw [List.set_cons_succ,
            rawCollectList_cons_other _ _ (fun fs hne => Val.noConfusion hne), h2]
      | vNull =>
        refine ⟨P, Q, ?_, ?_⟩
        · rw [rawCollectList_cons_other _ _ (fun fs hne => Val.noConfusion hne), h1]
        · rw [List.set_cons_succ,
            rawCollectList_cons_other _ _ (fun fs hne => Val.noConfusion hne), h2]
      | vArr ys =>
        refine ⟨P, Q, ?_, ?_⟩
        · rw [rawCollectList_cons_other _ _ (fun fs hne => Val.noConfusion hne), h1]
        · rw [List.set_cons_succ,
            rawCollectList_cons_other _ _ (fun fs hne => Val.noConfusion hne), h2]

/-- Structure of the collector traversal after a one-node change: the
before traversal splits around the target's entry, the after traversal
has the same shape with the target entry rewritten, entries before the
target related by `entrySim` (ancestors keep id/value/streaming), and
entries after the target literally unchanged. -/
theorem rawCollect_updAt_split :
    ∀ (p : List Nat) (fs : Fields) (f : Fields → Fields) (t : Fields),
      pathOk fs p = true → nodeAt fs p = some t →
      isStreamingTextN (f t) = isStreamingTextN t →
      idOf (f t) = idOf t →
      childrenOf (f t) = childrenOf t →
      ∃ L1 M1 L2,
        rawCollect fs = L1 ++ entryOf t ++ L2 ∧
        rawCollect (updAt fs p f) =
          M1 ++ (entryOf t).map (fun q => (q.1, f t)) ++ L2 ∧
        List.Forall₂ entrySim L1 M1 := by
  intro p
  induction p with
  | nil =>
    intro fs f t hp hn hf1 hf2 hf3
    simp [nodeAt] at hn
    subst hn
    refine ⟨[], [], rawCollectList (childrenOf fs), ?_, ?_, List.Forall₂.nil⟩
    · rw [rawCollect_eq_entry]
      simp
    · have hupd : updAt fs [] f = f fs := rfl
      rw [hupd, rawCollect_eq_entry, hf3, ← entryOf_congr fs (f fs) hf1 hf2]
      simp
  | cons k0 rest ih =>
    intro fs f t hp hn hf1 hf2 hf3
    obtain ⟨xs, gs, hch, hel, hty, hpr⟩ := pathOk_cons_elim hp
    rw [nodeAt_cons_eq hch hel rest] at hn
    obtain ⟨L1, M1, L2, hB, hA, hsim⟩ := ih gs f t hpr hn hf1 hf2 hf3
    obtain ⟨P, Q, hxs, hset⟩ :=
      rawCollectList_set_obj xs k0 gs (updAt gs rest f) hel
    have hroot1 : isStreamingTextN
        (setChildren fs (xs.set k0 (Val.vObj (updAt gs rest f)))) =
        isStreamingTextN fs :=
      isStreamingTextN_setKey_ne fs "children" _ (by decide) (by decide)
    have hroot2 : idOf (setChildren fs (xs.set k0 (Val.vObj (updAt gs rest f)))) =
        idOf fs := idOf_setKey_ne fs "children" _ (by decide)
    have hroot3 : strValueOf
        (setChildren fs (xs.set k0 (Val.vObj (updAt gs rest f)))) =
        strValueOf fs := strValueOf_setKey_ne fs "children" _ (by decide)
    have hroot4 : streamingFlag
        (setChildren fs (xs.set k0 (Val.vObj (updAt gs rest f)))) =
        streamingFlag fs := streamingFlag_setKey_ne fs "children" _ (by decide)
    refine ⟨entryOf fs ++ (P ++ L1),
      (entryOf fs).map
        (fun q => (q.1, setChildren fs (xs.set k0 (Val.vObj (updAt gs rest f))))) ++
        (P ++ M1), L2 ++ Q, ?_, ?_, ?_⟩
    · rw [rawCollect_eq_entry, childrenOf_eq_of_lookup hch, hxs, hB]
      simp
    · rw [updAt_cons_eq hch hel rest f, rawCollect_eq_entry,
        childrenOf_setChildren fs _ hch, hset, hA,
        ← entryOf_congr fs _ hroot1 hroot2]
      simp
    · exact List.rel_append (entryOf_sim fs _ hroot3 hroot4)
        (List.rel_append (forall₂_entrySim_same P) hsim)

theorem upsert_not_present {α : Type} (m : List (String × α)) (k : String) (v : α)
    (h : m.any (fun p => p.1 = k) = false) : upsert m k v = m ++ [(k, v)] := by
  unfold upsert
  rw [h]
  simp

theorem foldl_upsert_acc {α : Type} :
    ∀ (entries acc : List (String × α)),
      (∀ i, i ∈ entries.map Prod.fst → acc.any (fun p => p.1 = i) = false) →
      (entries.map Prod.fst).Nodup →
      entries.foldl (fun m p => upsert m p.1 p.2) acc = acc ++ entries := by
  intro entries
  induction entries with
  | nil => intro acc h hn; simp
  | cons e rest ih =>
    intro acc h hn
    obtain ⟨i, v⟩ := e
    simp only [List.map_cons] at hn
    have hn2 := List.nodup_cons.mp hn
    simp only [List.foldl_cons]
    have hnot : acc.any (fun p => p.1 = i) = false := h i (by simp)
    rw [upsert_not_present acc i v hnot]
    have hnext : ∀ j, j ∈ rest.map Prod.fst →
        (acc ++ [(i, v)]).any (fun p => p.1 = j) = false := by
      intro j hj
      rw [List.any_append]
      have h1 : acc.any (fun p => p.1 = j) = false := h j (by simp [hj])
      have h2 : ([(i, v)] : List (String × α)).any (fun p => p.1 = j) = false := by
        simp
        intro hij
        exact absurd (hij ▸ hj) hn2.1
      rw [h1, h2]
      rfl
    rw [ih (acc ++ [(i, v)]) hnext hn2.2]
    simp

theorem collectRecord_eq_raw (fs : Fields)
    (h : ((rawCollect fs).map Prod.fst).Nodup) :
    collectRecord fs = rawCollect fs := by
  unfold collectRecord
  rw [foldl_upsert_acc (rawCollect fs) [] (fun i _ => rfl) h]
  simp

theorem lookupRec_of_mem_nodup {α : Type} :
    ∀ (L : List (String × α)) (i : String) (v : α),
      (i, v) ∈ L → (L.map Prod.fst).Nodup → lookupRec L i = some v := by
  intro L
  induction L with
  | nil => intro i v h hn; simp at h
  | cons e rest ih =>
    intro i v h hn
    obtain ⟨k, w⟩ := e
    simp only [List.map_cons] at hn
    have hn2 := List.nodup_cons.mp hn
    rcases List.mem_cons.mp h with h1 | h2
    · cases h1
      simp [lookupRec]
    · have hi : i ∈ rest.map Prod.fst := List.mem_map.mpr ⟨(i, v), h2, rfl⟩
      have hne : k ≠ i := fun hk => hn2.1 (hk ▸ hi)
      simp only [lookupRec]
      rw [if_neg hne]
      exact ih i v h2 hn2.2

theorem forall₂_fst_eq {L M : List (String × Fields)}
    (h : List.Forall₂ entrySim L M) : L.map Prod.fst = M.map Prod.fst := by
  induction h with
  | nil => rfl
  | cons h1 h2 ih => simp [h1.1, ih]

theorem forall₂_mem_exists {L M : List (String × Fields)}
    (h : List.Forall₂ entrySim L M) :
    ∀ a ∈ M, ∃ b ∈ L, entrySim b a := by
  induction h with
  | nil => intro a ha; simp at ha
  | cons h1 h2 ih =>
    intro a ha
    rcases List.mem_cons.mp ha with h3 | h4
    · exact ⟨_, List.mem_cons_self _ _, by rw [h3]; exact h1⟩
    · obtain ⟨b, hb, hsim⟩ := ih a h4
      exact ⟨b, List.mem_cons_of_mem _ hb, hsim⟩

theorem string_append_ne (s suffix : String) (h : suffix ≠ "") :
    s ++ suffix ≠ s := by
  intro hEq
  apply h
  have hd : s.data ++ suffix.data = s.data := by
    have h2 := congrArg String.data hEq
    rwa [String.data_append] at h2
  have hnil : suffix.data = [] := by
    have h3 := congrArg List.length hd
    rw [List.length_append] at h3
    have h4 : suffix.data.length = 0 := by omega
    exact List.length_eq_zero.mp h4
  obtain ⟨l⟩ := suffix
  change l = [] at hnil
  rw [hnil]

theorem strDropChars_append (s suffix : String) :
    strDropChars (s ++ suffix) s.data.length = suffix := by
  unfold strDropChars
  rw [String.data_append, List.drop_left]

theorem diffLoop_skip_all (B : List (String × Fields)) :
    ∀ M, (∀ q ∈ M, ∃ b, lookupRec B q.1 = some b ∧ strValueOf b = strValueOf q.2) →
      diffLoop B M = .ok [] := by
  intro M
  induction M with
  | nil => intro h; rfl
  | cons q rest ih =>
    intro h
    obtain ⟨i, a⟩ := q
    obtain ⟨b, hb, hv⟩ := h (i, a) (List.mem_cons_self _ _)
    simp only [diffLoop, hb]
    rw [if_pos hv]
    exact ih (fun q hq => h q (List.mem_cons_of_mem _ hq))

theorem diffLoop_one (B : List (String × Fields)) (i0 : String) (tgt b0 : Fields)
    (suffix : String) (hs : suffix ≠ "")
    (hb0 : lookupRec B i0 = some b0)
    (hval : strValueOf tgt = strValueOf b0 ++ suffix) :
    ∀ M1 M2,
      (∀ q ∈ M1, ∃ b, lookupRec B q.1 = some b ∧ strValueOf b = strValueOf q.2) →
      (∀ q ∈ M2, ∃ b, lookupRec B q.1 = some b ∧ strValueOf b = strValueOf q.2) →
      diffLoop B (M1 ++ (i0, tgt) :: M2) =
        .ok [Delta.textDelta i0 suffix (! streamingFlag tgt)] := by
  intro M1
  induction M1 with
  | nil =>
    intro M2 h1 h2
    rw [List.nil_append]
    simp only [diffLoop, hb0]
    have hne : ¬ strValueOf b0 = strValueOf tgt := by
      rw [hval]
      intro hEq
      exact string_append_ne (strValueOf b0) suffix hs hEq.symm
    rw [if_neg hne]
    have hst : strStarts (strValueOf tgt) (strValueOf b0) = true := by
      rw [hval]
      exact strStarts_append _ _
    rw [if_neg (not_not_intro hst), diffLoop_skip_all B M2 h2, hval,
      strDropChars_append]
  | cons q rest ih =>
    intro M2 h1 h2
    obtain ⟨j, a⟩ := q
    obtain ⟨b, hb, hv⟩ := h1 (j, a) (List.mem_cons_self _ _)
    rw [List.cons_append]
    simp only [diffLoop, hb]
    rw [if_pos hv]
    exact ih M2 (fun q hq => h1 q (List.mem_cons_of_mem _ hq)) h2

theorem map_fst_map_pair (l : List (String × Fields)) (g : Fields) :
    (l.map (fun q => (q.1, g))).map Prod.fst = l.map Prod.fst := by
  induction l with
  | nil => rfl
  | cons q rest ih => simp [ih]

theorem entryOf_eq_single {t : Fields} {i0 : String}
    (hst : isStreamingTextN t = true) (hid : idOf t = some i0) :
    entryOf t = [(i0, t)] := by
  simp [entryOf, hst, hid]

/-- Every entry of the after collection away from the target looks up a
before entry with the same string value. -/
theorem split_before_lookup {fs : Fields} {L1 M1 L2 : List (String × Fields)}
    {t : Fields}
    (hnd : ((rawCollect fs).map Prod.fst).Nodup)
    (hB : rawCollect fs = L1 ++ entryOf t ++ L2)
    (hsim : List.Forall₂ entrySim L1 M1) :
    (∀ q ∈ M1, ∃ b, lookupRec (rawCollect fs) q.1 = some b ∧
        strValueOf b = strValueOf q.2) ∧
    (∀ q ∈ L2, ∃ b, lookupRec (rawCollect fs) q.1 = some b ∧
        strValueOf b = strValueOf q.2) := by
  constructor
  · intro q hq
    obtain ⟨b, hbL1, hsimq⟩ := forall₂_mem_exists hsim q hq
    obtain ⟨bi, bn⟩ := b
    refine ⟨bn, ?_, hsimq.2.1.symm⟩
    rw [← hsimq.1]
    exact lookupRec_of_mem_nodup _ bi bn
      (by rw [hB]; exact List.mem_append_left _ (List.mem_append_left _ hbL1)) hnd
  · intro q hq
    obtain ⟨qi, qn⟩ := q
    refine ⟨qn, ?_, rfl⟩
    exact lookupRec_of_mem_nodup _ qi qn
      (by rw [hB]; exact List.mem_append_right _ hq) hnd

/-- A one-node change keeps the collected id list, hence its
uniqueness. -/
theorem split_after_nodup {fs after : Fields} {L1 M1 L2 : List (String × Fields)}
    {t g : Fields}
    (hnd : ((rawCollect fs).map Prod.fst).Nodup)
    (hB : rawCollect fs = L1 ++ entryOf t ++ L2)
    (hA : rawCollect after = M1 ++ (entryOf t).map (fun q => (q.1, g)) ++ L2)
    (hsim : List.Forall₂ entrySim L1 M1) :
    ((rawCollect after).map Prod.fst).Nodup := by
  have hfst := forall₂_fst_eq hsim
  have hi : (rawCollect after).map Prod.fst = (rawCollect fs).map Prod.fst := by
    rw [hA, hB]
    simp only [List.map_append, map_fst_map_pair]
    rw [← hfst]
  rw [hi]
  exact hnd

/-- C2: on a pair of snapshots identical except that one id-bearing
streaming-text node's `streaming` field is rewritten (its value
unchanged), `diffWidget` never full-replaces — but it returns the EMPTY
delta list: the equal-values check in the per-id loop skips the node,
so no empty-delta/done event is emitted, contrary to the spec
sentence. -/
theorem C2_streaming_flip_diff_empty (fs : Fields) (p : List Nat) (t : Fields)
    (v : Val) (i0 : String)
    (hp : pathOk fs p = true) (hn : nodeAt fs p = some t)
    (hst : isStreamingTextN t = true) (hid : idOf t = some i0)
    (hnd : ((rawCollect fs).map Prod.fst).Nodup) :
    diffWidget fs (updAt fs p (fun u => setKey u "streaming" v)) =
      Except.ok [] := by
  have hfr : fullReplace fs (updAt fs p (fun u => setKey u "streaming" v)) = false :=
    fullReplace_updAt_false p fs (fun u => setKey u "streaming" v) t hp hn
      (fullReplace_setKey_streaming t v hst)
      (lookupF_setKey_ne t "streaming" v "type" (by decide))
      (lookupF_setKey_ne t "streaming" v "id" (by decide))
      (lookupF_setKey_ne t "streaming" v "key" (by decide))
  obtain ⟨L1, M1, L2, hB, hA, hsim⟩ :=
    rawCollect_updAt_split p fs (fun u => setKey u "streaming" v) t hp hn
      (isStreamingTextN_setKey_ne t "streaming" v (by decide) (by decide))
      (idOf_setKey_ne t "streaming" v (by decide))
      (childrenOf_setKey_ne t "streaming" v (by decide))
  have hndA := split_after_nodup hnd hB hA hsim
  obtain ⟨hM1, hL2⟩ := split_before_lookup hnd hB hsim
  have hfr2 : ¬ fullReplace fs (updAt fs p (fun u => setKey u "streaming" v)) = true := by
    rw [hfr]
    exact Bool.false_ne_true
  unfold diffWidget
  rw [if_neg hfr2, collectRecord_eq_raw fs hnd, collectRecord_eq_raw _ hndA, hA]
  apply diffLoop_skip_all
  intro q hq
  rw [List.mem_append] at hq
  rcases hq with hq | hq
  · rw [List.mem_append] at hq
    rcases hq with hq | hq
    · exact hM1 q hq
    · rw [entryOf_eq_single hst hid] at hq
      simp at hq
      subst hq
      refine ⟨t, ?_, (strValueOf_setKey_ne t "streaming" v (by decide)).symm⟩
      exact lookupRec_of_mem_nodup _ i0 t
        (by rw [hB, entryOf_eq_single hst hid]
            exact List.mem_append_left _ (List.mem_append_right _ (by simp))) hnd
  · exact hL2 q hq

/-- C5: on a pair of snapshots identical except that one id-bearing
streaming-text node reached through `children` arrays has its value
extended by a non-empty suffix, `diffWidget` returns exactly one
streaming-text delta, whose delta string is the suffix and whose done
flag is the negation of the after node's streaming flag (the claim
holds on this children-reachable, unique-id family; text nodes stored
outside a `children` array are never collected and produce no delta). -/
theorem C5_value_extension_single_delta (fs : Fields) (p : List Nat) (t : Fields)
    (suffix : String) (i0 : String) (hsuf : suffix ≠ "")
    (hp : pathOk fs p = true) (hn : nodeAt fs p = some t)
    (hst : isStreamingTextN t = true) (hid : idOf t = some i0)
    (hnd : ((rawCollect fs).map Prod.fst).Nodup) :
    diffWidget fs (updAt fs p (extendValueF suffix)) =
      Except.ok [Delta.textDelta i0 suffix
        (! streamingFlag (extendValueF suffix t))] := by
  have hfr : fullReplace fs (updAt fs p (extendValueF suffix)) = false :=
    fullReplace_updAt_false p fs (extendValueF suffix) t hp hn
      (fullReplace_extendValueF suffix t hst)
      (lookupF_extendValueF_ne suffix t "type" (by decide))
      (lookupF_extendValueF_ne suffix t "id" (by decide))
      (lookupF_extendValueF_ne suffix t "key" (by decide))
  obtain ⟨L1, M1, L2, hB, hA, hsim⟩ :=
    rawCollect_updAt_split p fs (extendValueF suffix) t hp hn
      (isStreamingTextN_extendValueF suffix t)
      (idOf_extendValueF suffix t)
      (childrenOf_extendValueF suffix t)
  have hndA := split_after_nodup hnd hB hA hsim
  obtain ⟨hM1, hL2⟩ := split_before_lookup hnd hB hsim
  have hfr2 : ¬ fullReplace fs (updAt fs p (extendValueF suffix)) = true := by
    rw [hfr]
    exact Bool.false_ne_true
  have hb0 : lookupRec (rawCollect fs) i0 = some t :=
    lookupRec_of_mem_nodup _ i0 t
      (by rw [hB, entryOf_eq_single hst hid]
          exact List.mem_append_left _ (List.mem_append_right _ (by simp))) hnd
  unfold diffWidget
  rw [if_neg hfr2, collectRecord_eq_raw fs hnd, collectRecord_eq_raw _ hndA, hA,
    entryOf_eq_single hst hid]
  simp only [List.map_cons, List.map_nil]
  rw [List.append_assoc, List.singleton_append]
  exact diffLoop_one (rawCollect fs) i0 (extendValueF suffix t) t suffix hsuf hb0
    (strValueOf_extendValueF suffix t hst) M1 L2 hM1 hL2

/-- C3: the two replace exemptions apply exactly to nodes that satisfy
`isStreamingText` — `type = "Text"` with a string `value`.  For such a
target node, a cumulative value extension alone, or a `streaming`
rewrite alone, never triggers a full replace anywhere in the snapshot;
a Markdown node enjoys no such exemption (see the counterexample). -/
theorem C3_exemptions_only_for_text (fs : Fields) (p : List Nat) (t : Fields)
    (suffix : String) (v : Val)
    (hp : pathOk fs p = true) (hn : nodeAt fs p = some t)
    (hst : isStreamingTextN t = true) :
    fullReplace fs (updAt fs p (extendValueF suffix)) = false ∧
    fullReplace fs (updAt fs p (fun u => setKey u "streaming" v)) = false := by
  constructor
  · exact fullReplace_updAt_false p fs (extendValueF suffix) t hp hn
      (fullReplace_extendValueF suffix t hst)
      (lookupF_extendValueF_ne suffix t "type" (by decide))
      (lookupF_extendValueF_ne suffix t "id" (by decide))
      (lookupF_extendValueF_ne suffix t "key" (by decide))
  · exact fullReplace_updAt_false p fs (fun u => setKey u "streaming" v) t hp hn
      (fullReplace_setKey_streaming t v hst)
      (lookupF_setKey_ne t "streaming" v "type" (by decide))
      (lookupF_setKey_ne t "streaming" v "id" (by decide))
      (lookupF_setKey_ne t "streaming" v "key" (by decide))

/-- C4: when one streaming-text node's value regresses (the new value
differs from and does not start with the old one), the changed `value`
field makes `fullReplace` true, so `diffWidget` returns a single
root-replace delta; the NonCumulativeUpdateError branch of the per-id
loop is preempted and cannot be reached on such a pair. -/
theorem C4_regression_full_replace (fs : Fields) (p : List Nat) (t : Fields)
    (w : String)
    (hp : pathOk fs p = true) (hn : nodeAt fs p = some t)
    (hst : isStreamingTextN t = true)
    (hne : w ≠ strValueOf t)
    (hnp : strStarts w (strValueOf t) = false) :
    diffWidget fs (updAt fs p (fun u => setKey u "value" (Val.vStr w))) =
      Except.ok [Delta.rootUpdated
        (updAt fs p (fun u => setKey u "value" (Val.vStr w)))] := by
  have hfr : fullReplace fs (updAt fs p (fun u => setKey u "value" (Val.vStr w))) = true :=
    fullReplace_updAt_true p fs (fun u => setKey u "value" (Val.vStr w)) t hp hn
      (fullReplace_setKey_value_regress t w hst hne hnp)
      (lookupF_setKey_ne t "value" _ "type" (by decide))
  unfold diffWidget
  rw [if_pos hfr]

/-!
## Thread items, protocol events and the persistence model

The conversational item union of `types.ts`, restricted to the fields
the verified operations read.  `created_at` timestamps are not modelled.
Annotation payloads are opaque data; we render them as strings.
-/

/-- Annotation payloads (opaque data as far as the engine goes). -/
abbrev Ann := String

/-- `AssistantMessageContent` (the `output_text` part). -/
structure ContentPart where
  text : String
  anns : List Ann
deriving DecidableEq

/-- The `ThreadItem` union of `types.ts`. -/
inductive Item where
  | userMessage (id threadId : String) (content : List String)
  | assistantMessage (id threadId : String) (content : List ContentPart)
  | widgetItem (id threadId : String) (w : Fields) (copyText : Option String)
  | clientToolCall (id threadId callId name : String) (args : Val)
      (outp : Option Val) (pendingStatus : Bool)
  | hiddenContext (id threadId : String) (content : String)
  | sdkHiddenContext (id threadId : String) (content : String)
  | workflowItem (id threadId : String)
  | taskItem (id threadId : String)
deriving DecidableEq

/-- The `id` field every item carries. -/
def Item.id : Item → String
  | .userMessage i _ _ => i
  | .assistantMessage i _ _ => i
  | .widgetItem i _ _ _ => i
  | .clientToolCall i _ _ _ _ _ _ => i
  | .hiddenContext i _ _ => i
  | .sdkHiddenContext i _ _ => i
  | .workflowItem i _ => i
  | .taskItem i _ => i

/-- The two hidden-context kinds, filtered from client-facing views. -/
def isHiddenItem : Item → Bool
  | .hiddenContext _ _ _ => true
  | .sdkHiddenContext _ _ _ => true
  | _ => false

/-- `AssistantMessageUpdate` and widget updates from `types.ts`
(the payload of `thread.item.updated`). -/
inductive ItemUpdate where
  | widgetDelta (d : Delta)
  | partAdded (contentIndex : Nat) (content : ContentPart)
  | partTextDelta (contentIndex : Nat) (delta : String)
  | annAdded (contentIndex annIndex : Nat) (a : Ann)
  | partDone (contentIndex : Nat) (content : ContentPart)
deriving DecidableEq

/-- `ThreadMetadata` (id and title; status/metadata not modelled). -/
structure ThreadMeta where
  id : String
  title : Option String := none
deriving DecidableEq

/-- `Page<ThreadItem>` from `types.ts`. -/
structure Page where
  data : List Item
  has_more : Bool
  after : Option String
deriving DecidableEq

/-- The `Thread` snapshot sent to clients. -/
structure ThreadSnap where
  id : String
  title : Option String
  items : Page
deriving DecidableEq

/-- Error-event codes (`"stream_error" | "custom"`). -/
inductive ECode where
  | streamError
  | custom
deriving DecidableEq

/-- `ThreadStreamEvent` from `types.ts`. -/
inductive SEvent where
  | threadCreated (t : ThreadSnap)
  | threadUpdated (t : ThreadSnap)
  | itemAdded (item : Item)
  | itemUpdated (itemId : String) (upd : ItemUpdate)
  | itemDone (item : Item)
  | itemRemoved (itemId : String)
  | itemReplaced (item : Item)
  | streamOptions (allowCancel : Bool)
  | progressUpdate (text : String)
  | clientEffect (name : String)
  | errorEvent (code : ECode) (message : Option String) (allowRetry : Bool)
deriving DecidableEq

/-- `DEFAULT_PAGE_SIZE` from `constants.ts`. -/
def DEFAULT_PAGE_SIZE : Nat := 20

/-- `DEFAULT_ERROR_MESSAGE` from `constants.ts`. -/
def DEFAULT_ERROR_MESSAGE : String :=
  "An error occurred when generating a response."

/-- The hidden-context text appended by `handleStreamCancelled`. -/
def cancelMessage : String :=
  "The user cancelled the stream. Stop responding to the prior request."

/-- Modelled from the spec: the persistence backend (`Store`) is an
external collaborator whose concrete implementation is not under `src/`
(only the abstract class and a documented SQLite reference
implementation exist).  Per §6 of the spec it keeps, per thread, the
thread metadata and the items in chronological (insertion) order, with
paginated loads whose cursor is the last item id. -/
structure StoreSt where
  threads : List ThreadMeta
  items : List (String × List Item)
deriving DecidableEq

/-- The chronological item list of a thread. -/
def itemsOf (st : StoreSt) (tid : String) : List Item :=
  (lookupRec st.items tid).getD []

/-- Replace a thread's item list. -/
def setItems (st : StoreSt) (tid : String) (l : List Item) : StoreSt :=
  { st with items := upsert st.items tid l }

/-- Modelled from the spec: `addThreadItem` appends one item. -/
def addThreadItem (st : StoreSt) (tid : String) (it : Item) : StoreSt :=
  setItems st tid (itemsOf st tid ++ [it])

/-- Modelled from the spec: `deleteThreadItem` removes the item with
the given id. -/
def deleteThreadItem (st : StoreSt) (tid : String) (itemId : String) : StoreSt :=
  setItems st tid ((itemsOf st tid).filter (fun i => Item.id i ≠ itemId))

/-- Modelled from the spec: `saveItem` updates an item in place by id. -/
def saveItem (st : StoreSt) (tid : String) (it : Item) : StoreSt :=
  setItems st tid
    ((itemsOf st tid).map (fun i => if Item.id i = Item.id it then it else i))

/-- Modelled from the spec: `loadThread` returns the stored metadata. -/
def loadThreadMeta (st : StoreSt) (tid : String) : Option ThreadMeta :=
  st.threads.find? (fun t => t.id = tid)

/-- The items strictly after the cursor item (the documented store
compares creation order against the cursor row; an unknown cursor
yields the empty page). -/
def dropPastId (xs : List Item) (a : String) : List Item :=
  (xs.dropWhile (fun i => Item.id i ≠ a)).drop 1

/-- Modelled from the spec: paginated item load, ascending = insertion
order, `after` an exclusive cursor, `has_more`/`after` as in the
documented reference store (fetch `limit + 1`, cursor = last id). -/
def loadThreadItems (st : StoreSt) (tid : String) (after : Option String)
    (limit : Nat) (asc : Bool) : Page :=
  let ordered := if asc then itemsOf st tid else (itemsOf st tid).reverse
  let rest := match after with
    | none => ordered
    | some a => dropPastId ordered a
  { data := rest.take limit,
    has_more := limit < rest.length,
    after := if limit < rest.length then (rest.take limit).getLast?.map Item.id
             else none }

/-- `toThreadResponse` from `server.ts`: hidden-context items are
filtered out of the client-facing snapshot. -/
def toThreadResponse (meta : ThreadMeta) (page : Page) : ThreadSnap :=
  { id := meta.id, title := meta.title,
    items := { page with data := page.data.filter (fun i => ¬ isHiddenItem i) } }

/-- The `items.list` branch of `processNonStreaming`: load a page and
filter out hidden-context items. -/
def itemsListResponse (st : StoreSt) (tid : String) (after : Option String)
    (limit : Nat) (asc : Bool) : Page :=
  let page := loadThreadItems st tid after limit asc
  { page with data := page.data.filter (fun i => ¬ isHiddenItem i) }

/-!
## The streaming widget emitter (`streamWidget`)

The producer of successive widget snapshots is modelled as the list of
snapshots it yields; the generated item id is passed in (the original
calls an injected id generator once per invocation).
-/

/-- The inner loop of `streamWidget`: diff each new snapshot against
the last one, emit one `thread.item.updated` per delta, and return the
final snapshot. -/
def swLoop (itemId : String) (last : Fields) :
    List Fields → Except DiffError (List SEvent × Fields)
  | [] => .ok ([], last)
  | s :: rest =>
    match diffWidget last s with
    | .error e => .error e
    | .ok updates =>
      match swLoop itemId s rest with
      | .error e => .error e
      | .ok (evs, fin) =>
        .ok ((updates.map (fun u => SEvent.itemUpdated itemId (.widgetDelta u))) ++ evs,
             fin)

/-- `streamWidget` from `server.helper.ts`, on a multi-snapshot
producer: added with the first snapshot, updated per delta, done with
the final snapshot. -/
def streamWidgetGen (threadId itemId : String) (copyText : Option String)
    (snapshots : List Fields) : Except DiffError (List SEvent) :=
  match snapshots with
  | [] => .ok []
  | s1 :: rest =>
    match swLoop itemId s1 rest with
    | .error e => .error e
    | .ok (evs, fin) =>
      .ok (SEvent.itemAdded (.widgetItem itemId threadId s1 copyText) ::
           evs ++ [SEvent.itemDone (.widgetItem itemId threadId fin copyText)])

/-!
## The thread event coordinator (`processEvents` in `server.ts`)

The application turn source is modelled by the list of events it yields
followed by how it terminates (normal return or one of the three
exception classes).  The thread-metadata mutation tracking
(`thread !== lastThread`) cannot fire in this pure model, where the
turn source does not mutate the thread object in place.
-/

/-- JavaScript `!text?.trim()` on a string: blank after trimming. -/
def jsBlank (s : String) : Bool :=
  s.data.all Char.isWhitespace

/-- Pad the content list with empty text parts up to `idx` (the `while
(content.length <= content_index)` loop). -/
def padTo (c : List ContentPart) (idx : Nat) : List ContentPart :=
  c ++ List.replicate (idx + 1 - c.length) ⟨"", []⟩

/-- `applyAssistantMessageUpdate` from `server.ts`.  A widget delta
carries no `content_index`, so the JavaScript padding loop and switch
leave the content untouched. -/
def applyAssistantMessageUpdate (c : List ContentPart) :
    ItemUpdate → List ContentPart
  | .widgetDelta _ => c
  | .partAdded i content => (padTo c i).set i content
  | .partTextDelta i delta =>
    let c' := padTo c i
    let part := c'.getD i ⟨"", []⟩
    c'.set i ⟨part.text ++ delta, part.anns⟩
  | .annAdded i ai a =>
    let c' := padTo c i
    let part := c'.getD i ⟨"", []⟩
    c'.set i ⟨part.text,
      if ai ≤ part.anns.length then part.anns.insertIdx ai a
      else part.anns ++ [a]⟩
  | .partDone i content => (padTo c i).set i content

/-- Events whose forwarding is suppressed: `thread.item.done` carrying
a hidden-context item. -/
def isHiddenDoneEvent : SEvent → Bool
  | .itemDone it => isHiddenItem it
  | _ => false

/-- One step of the coordinator's event switch: store effect, pending
set effect, and whether a thread snapshot must be emitted. -/
def stepEvent (tid : String) (st : StoreSt) (pending : List (String × Item)) :
    SEvent → StoreSt × List (String × Item) × Bool
  | .itemAdded it => (st, upsert pending (Item.id it) it, true)
  | .itemDone it =>
    (addThreadItem st tid it, pending.filter (fun p => p.1 ≠ Item.id it), true)
  | .itemRemoved iid =>
    (deleteThreadItem st tid iid, pending.filter (fun p => p.1 ≠ iid), true)
  | .itemReplaced it =>
    (saveItem st tid it, pending.filter (fun p => p.1 ≠ Item.id it), true)
  | .itemUpdated iid u =>
    (st,
     match lookupRec pending iid with
     | some (.assistantMessage aid atid c) =>
       upsert pending aid (.assistantMessage aid atid (applyAssistantMessageUpdate c u))
     | _ => pending,
     false)
  | _ => (st, pending, false)

/-- `buildThreadResponseWithPending`: the durable page overlaid with
pending items whose ids are not yet stored, then filtered through
`toThreadResponse`. -/
def buildSnapshot (tid : String) (st : StoreSt) (pending : List (String × Item)) :
    ThreadSnap :=
  let meta := (loadThreadMeta st tid).getD ⟨tid, none⟩
  let page := loadThreadItems st tid none DEFAULT_PAGE_SIZE true
  let seen := page.data.map Item.id
  let pendingList := (pending.map Prod.snd).filter (fun i => ¬ seen.contains (Item.id i))
  toThreadResponse meta
    { data := page.data ++ pendingList, has_more := page.has_more, after := page.after }

/-- The coordinator's main loop over the turn-source events. -/
def processLoop (tid : String) :
    StoreSt → List (String × Item) → List SEvent →
      List SEvent × StoreSt × List (String × Item)
  | st, pending, [] => ([], st, pending)
  | st, pending, e :: rest =>
    let r := stepEvent tid st pending e
    let emitted :=
      (if isHiddenDoneEvent e then [] else [e]) ++
      (if r.2.2 then [SEvent.threadUpdated (buildSnapshot tid r.1 r.2.1)] else [])
    let tail := processLoop tid r.1 r.2.1 rest
    (emitted ++ tail.1, tail.2.1, tail.2.2)

/-- How the turn source terminates: normal return, or one of the three
exception outcomes of the `catch` block. -/
inductive Terminal where
  | normal
  | throwCustomError (message : String) (allowRetry : Bool)
  | throwStreamError (allowRetry : Bool)
  | throwOther
deriving DecidableEq

/-- The error event each failure outcome produces (none on success). -/
def errorEventsFor : Terminal → List SEvent
  | .normal => []
  | .throwCustomError msg r => [.errorEvent .custom (some msg) r]
  | .throwStreamError r => [.errorEvent .streamError none r]
  | .throwOther => [.errorEvent .streamError (some DEFAULT_ERROR_MESSAGE) true]

/-- `processEvents` from `server.ts`: stream options first, the
processed body, the error event of a failing terminal, and the final
thread snapshot (emitted on success and on every failure path). -/
def processEvents (thread : ThreadMeta) (st : StoreSt) (allowCancel : Bool)
    (evs : List SEvent) (term : Terminal) : List SEvent × StoreSt :=
  let body := processLoop thread.id st [] evs
  (SEvent.streamOptions allowCancel :: body.1 ++ errorEventsFor term ++
    [SEvent.threadUpdated (buildSnapshot thread.id body.2.1 body.2.2)],
   body.2.1)

/-- `handleStreamCancelled` from `server.ts`: persist every pending
assistant message with non-blank accumulated text, then append one
hidden SDK context item (whose generated id is passed in). -/
def cancelStep (tid : String) (s : StoreSt) : Item → StoreSt
  | .assistantMessage a b c =>
    if c.isEmpty || c.all (fun p => jsBlank p.text) then s
    else addThreadItem s tid (.assistantMessage a b c)
  | _ => s

def handleStreamCancelled (st : StoreSt) (thread : ThreadMeta)
    (pendingItems : List Item) (hiddenId : String) : StoreSt :=
  let st1 := pendingItems.foldl (cancelStep thread.id) st
  addThreadItem st1 thread.id (.sdkHiddenContext hiddenId thread.id cancelMessage)

/-!
## The retry-after-item branch of `processStreamingImpl`
-/

/-- `paginateThreadItemsReverse` from `server.ts`: despite its name it
pages in ascending order.  The `while (true)` loop is rendered with a
fuel of one more than the store's item count, which `paginate_eq_items`
below proves sufficient. -/
def paginatePages (st : StoreSt) (tid : String) : Nat → Option String → List Item
  | 0, _ => []
  | fuel + 1, after =>
    let page := loadThreadItems st tid after DEFAULT_PAGE_SIZE true
    if page.has_more then page.data ++ paginatePages st tid fuel page.after
    else page.data

/-- All items yielded by `paginateThreadItemsReverse`. -/
def paginateAll (st : StoreSt) (tid : String) : List Item :=
  paginatePages st tid ((itemsOf st tid).length + 1) none

/-- The collection loop of `threads.retry_after_item`: walk the items
in pagination order, collect everything before the target, stop at the
target (which must be a user message). -/
def retryCollect : List Item → String → Except String (List Item × Option Item)
  | [], _ => .ok ([], none)
  | i :: rest, target =>
    if Item.id i = target then
      match i with
      | .userMessage a b c => .ok ([], some (.userMessage a b c))
      | _ => .error ("Item " ++ target ++ " is not a user message")
    else
      match retryCollect rest target with
      | .error e => .error e
      | .ok (coll, um) => .ok (i :: coll, um)

/-- The `threads.retry_after_item` branch of `processStreamingImpl`:
collect, then (only if a target user message was found) delete the
collected items and run the coordinator over the application's respond
stream (modelled by `evs`/`term`). -/
def retryAfterItem (st : StoreSt) (tid target : String) (allowCancel : Bool)
    (evs : List SEvent) (term : Terminal) :
    Except String (List SEvent × StoreSt) :=
  let threadMetadata := (loadThreadMeta st tid).getD ⟨tid, none⟩
  match retryCollect (paginateAll st tid) target with
  | .error e => .error e
  | .ok (toRemove, um) =>
    match um with
    | some _ =>
      let st' := toRemove.foldl (fun s i => deleteThreadItem s tid (Item.id i)) st
      .ok (processEvents threadMetadata st' allowCancel evs term)
    | none => .ok ([], st)

/-- Pending assistant messages with non-blank accumulated text: what
the cancellation handler persists. -/
def keepPending : Item → Bool
  | .assistantMessage _ _ c => ! (c.isEmpty || c.all (fun p => jsBlank p.text))
  | _ => false

theorem lookupRec_append_right {α : Type} :
    ∀ (m : List (String × α)) (k : String) (v : α),
      (∀ p ∈ m, p.1 ≠ k) → lookupRec (m ++ [(k, v)]) k = some v := by
  intro m
  induction m with
  | nil => intro k v h; simp [lookupRec]
  | cons p rest ih =>
    intro k v h
    obtain ⟨pk, pv⟩ := p
    have hk : ¬ pk = k := h (pk, pv) (List.mem_cons_self _ _)
    simp only [List.cons_append, lookupRec]
    rw [if_neg hk]
    exact ih k v (fun q hq => h q (List.mem_cons_of_mem _ hq))

theorem lookupRec_map_replace {α : Type} :
    ∀ (m : List (String × α)) (k : String) (v : α),
      m.any (fun p => p.1 = k) = true →
      lookupRec (m.map (fun p => if p.1 = k then (k, v) else p)) k = some v := by
  intro m
  induction m with
  | nil => intro k v h; simp at h
  | cons p rest ih =>
    intro k v h
    obtain ⟨pk, pv⟩ := p
    by_cases hk : pk = k
    · subst hk
      have hred : ((pk, pv) :: rest).map (fun p => if p.1 = pk then (pk, v) else p) =
          (pk, v) :: rest.map (fun p => if p.1 = pk then (pk, v) else p) := by
        rw [List.map_cons]
        congr 1
        simp
      rw [hred]
      simp [lookupRec]
    · simp only [List.map_cons]
      rw [if_neg hk]
      simp only [lookupRec]
      rw [if_neg hk]
      apply ih
      simp only [List.any_cons] at h
      simpa [hk] using h

theorem lookupRec_upsert_self {α : Type} (m : List (String × α)) (k : String)
    (v : α) : lookupRec (upsert m k v) k = some v := by
  unfold upsert
  by_cases h : m.any (fun p => p.1 = k) = true
  · rw [if_pos h]
    exact lookupRec_map_replace m k v h
  · rw [if_neg h]
    apply lookupRec_append_right
    intro p hp hpk
    exact h (List.any_eq_true.mpr ⟨p, hp, by simp [hpk]⟩)

theorem itemsOf_addThreadItem (st : StoreSt) (tid : String) (it : Item) :
    itemsOf (addThreadItem st tid it) tid = itemsOf st tid ++ [it] := by
  unfold addThreadItem setItems
  show (lookupRec (upsert st.items tid (itemsOf st tid ++ [it])) tid).getD [] = _
  rw [lookupRec_upsert_self]
  rfl

theorem mem_dropPastId {xs : List Item} {a : String} {i : Item}
    (h : i ∈ dropPastId xs a) : i ∈ xs := by
  unfold dropPastId at h
  exact (List.dropWhile_sublist _).subset (List.mem_of_mem_drop h)

theorem loadThreadItems_data (st : StoreSt) (tid : String) (after : Option String)
    (limit : Nat) (asc : Bool) :
    (loadThreadItems st tid after limit asc).data =
      (match after with
       | none => if asc then itemsOf st tid else (itemsOf st tid).reverse
       | some a =>
         dropPastId (if asc then itemsOf st tid else (itemsOf st tid).reverse) a).take
        limit := rfl

theorem mem_loadThreadItems {st : StoreSt} {tid : String} {after : Option String}
    {limit : Nat} {asc : Bool} {i : Item}
    (h : i ∈ (loadThreadItems st tid after limit asc).data) : i ∈ itemsOf st tid := by
  rw [loadThreadItems_data] at h
  have h2 := List.mem_of_mem_take h
  have h3 : i ∈ (if asc then itemsOf st tid else (itemsOf st tid).reverse) := by
    cases after with
    | none => exact h2
    | some a => exact mem_dropPastId h2
  cases asc with
  | true => simpa using h3
  | false =>
    simp only [if_neg] at h3
    exact List.mem_reverse.mp (by simpa using h3)

theorem mem_paginatePages (st : StoreSt) (tid : String) :
    ∀ (fuel : Nat) (after : Option String) (i : Item),
      i ∈ paginatePages st tid fuel after → i ∈ itemsOf st tid := by
  intro fuel
  induction fuel with
  | zero => intro after i h; simp [paginatePages] at h
  | succ fuel ih =>
    intro after i h
    simp only [paginatePages] at h
    by_cases hm : (loadThreadItems st tid after DEFAULT_PAGE_SIZE true).has_more = true
    · rw [if_pos hm] at h
      rw [List.mem_append] at h
      rcases h with h | h
      · exact mem_loadThreadItems h
      · exact ih _ i h
    · rw [if_neg hm] at h
      exact mem_loadThreadItems h

theorem mem_paginateAll {st : StoreSt} {tid : String} {i : Item}
    (h : i ∈ paginateAll st tid) : i ∈ itemsOf st tid :=
  mem_paginatePages st tid _ _ i h

theorem paginateAll_short (st : StoreSt) (tid : String)
    (h : (itemsOf st tid).length ≤ DEFAULT_PAGE_SIZE) :
    paginateAll st tid = itemsOf st tid := by
  have h20 : (itemsOf st tid).length ≤ 20 := h
  have hm : (loadThreadItems st tid none DEFAULT_PAGE_SIZE true).has_more = false := by
    simp [loadThreadItems, DEFAULT_PAGE_SIZE]
    omega
  unfold paginateAll
  simp only [paginatePages]
  rw [hm]
  simp [loadThreadItems_data, List.take_of_length_le h]

theorem retryCollect_no_match :
    ∀ (l : List Item) (target : String),
      (∀ i ∈ l, Item.id i ≠ target) → retryCollect l target = .ok (l, none) := by
  intro l
  induction l with
  | nil => intro target h; rfl
  | cons i rest ih =>
    intro target h
    simp only [retryCollect]
    rw [if_neg (h i (List.mem_cons_self _ _)),
      ih target (fun j hj => h j (List.mem_cons_of_mem _ hj))]

theorem foldl_cancel_items (thread : ThreadMeta) :
    ∀ (P : List Item) (st : StoreSt),
      itemsOf (P.foldl (cancelStep thread.id) st) thread.id =
      itemsOf st thread.id ++ P.filter keepPending := by
  intro P
  induction P with
  | nil => intro st; simp
  | cons it rest ih =>
    intro st
    rw [List.foldl_cons]
    cases it with
    | assistantMessage a b c =>
      by_cases hb : (c.isEmpty || c.all (fun p => jsBlank p.text)) = true
      · have hkp : keepPending (Item.assistantMessage a b c) = false := by
          simp [keepPending, hb]
        have hred : cancelStep thread.id st (Item.assistantMessage a b c) = st := by
          simp only [cancelStep]
          rw [if_pos hb]
        rw [hred, ih st, List.filter_cons, hkp]
        simp
      · have hcond : (c.isEmpty || c.all (fun p => jsBlank p.text)) = false := by
          cases h2 : (c.isEmpty || c.all (fun p => jsBlank p.text)) with
          | true => exact absurd h2 hb
          | false => rfl
        have hkp : keepPending (Item.assistantMessage a b c) = true := by
          simp [keepPending, hcond]
        have hred : cancelStep thread.id st (Item.assistantMessage a b c) =
            addThreadItem st thread.id (Item.assistantMessage a b c) := by
          simp only [cancelStep]
          rw [if_neg hb]
        rw [hred, ih _, itemsOf_addThreadItem, List.filter_cons, hkp]
        simp
    | userMessage a b c => simpa [cancelStep, keepPending] using ih st
    | widgetItem a b w ct => simpa [cancelStep, keepPending] using ih st
    | clientToolCall a b d e f g h => simpa [cancelStep, keepPending] using ih st
    | hiddenContext a b c => simpa [cancelStep, keepPending] using ih st
    | sdkHiddenContext a b c => simpa [cancelStep, keepPending] using ih st
    | workflowItem a b => simpa [cancelStep, keepPending] using ih st
    | taskItem a b => simpa [cancelStep, keepPending] using ih st

theorem handleStreamCancelled_items (st : StoreSt) (thread : ThreadMeta)
    (P : List Item) (hid : String) :
    itemsOf (handleStreamCancelled st thread P hid) thread.id =
      itemsOf st thread.id ++ P.filter keepPending ++
        [Item.sdkHiddenContext hid thread.id cancelMessage] := by
  unfold handleStreamCancelled
  rw [itemsOf_addThreadItem, foldl_cancel_items thread P st]

theorem buildSnapshot_no_hidden (tid : String) (st : StoreSt)
    (pending : List (String × Item)) :
    ((buildSnapshot tid st pending).items.data.all
      (fun i => ! isHiddenItem i)) = true := by
  rw [List.all_eq_true]
  intro i hi
  have hi2 : i ∈ (buildSnapshot tid st pending).items.data := hi
  unfold buildSnapshot toThreadResponse at hi2
  simp only at hi2
  rw [List.mem_filter] at hi2
  simpa using hi2.2

theorem itemsList_no_hidden (st : StoreSt) (tid : String) (after : Option String)
    (limit : Nat) (asc : Bool) :
    ((itemsListResponse st tid after limit asc).data.all
      (fun i => ! isHiddenItem i)) = true := by
  rw [List.all_eq_true]
  intro i hi
  have hi2 : i ∈ (itemsListResponse st tid after limit asc).data := hi
  unfold itemsListResponse at hi2
  simp only at hi2
  rw [List.mem_filter] at hi2
  simpa using hi2.2

theorem processLoop_no_hidden (tid : String) :
    ∀ (evs : List SEvent) (st : StoreSt) (pending : List (String × Item)),
      ((processLoop tid st pending evs).1.all
        (fun e => ! isHiddenDoneEvent e)) = true := by
  intro evs
  induction evs with
  | nil => intro st pending; rfl
  | cons e rest ih =>
    intro st pending
    simp only [processLoop]
    rw [List.all_eq_true]
    intro x hx
    rw [List.mem_append] at hx
    rcases hx with hx | hx
    · rw [List.mem_append] at hx
      rcases hx with hx | hx
      · by_cases hd : isHiddenDoneEvent e = true
        · rw [if_pos hd] at hx
          simp at hx
        · rw [if_neg hd] at hx
          simp at hx
          subst hx
          simp [hd]
      · by_cases hf : (stepEvent tid st pending e).2.2 = true
        · rw [if_pos hf] at hx
          simp at hx
          subst hx
          rfl
        · rw [if_neg hf] at hx
          simp at hx
    · have := ih (stepEvent tid st pending e).1 (stepEvent tid st pending e).2.1
      rw [List.all_eq_true] at this
      exact this x hx

theorem errorEvents_no_hidden (term : Terminal) :
    ((errorEventsFor term).all (fun e => ! isHiddenDoneEvent e)) = true := by
  cases term <;> rfl

theorem processEvents_no_hidden (thread : ThreadMeta) (st : StoreSt) (ac : Bool)
    (evs : List SEvent) (term : Terminal) :
    ((processEvents thread st ac evs term).1.all
      (fun e => ! isHiddenDoneEvent e)) = true := by
  unfold processEvents
  simp only [List.all_cons, List.all_append]
  rw [processLoop_no_hidden thread.id evs st [], errorEvents_no_hidden]
  rfl

/-!
## Concrete instances used by the example claims, counterexamples and
witnesses
-/

/-- The first snapshot of the spec's emitter example. -/
def c6w1 : Fields :=
  [("type", Val.vStr "Text"), ("id", Val.vStr "t"), ("value", Val.vStr "")]

/-- The second snapshot of the spec's emitter example. -/
def c6w2 : Fields :=
  [("type", Val.vStr "Text"), ("id", Val.vStr "t"),
   ("value", Val.vStr "Hello, world"), ("streaming", Val.vBool false)]

/-- A one-node streaming-text snapshot. -/
def c2b : Fields :=
  [("type", Val.vStr "Text"), ("id", Val.vStr "t"), ("value", Val.vStr "hi"),
   ("streaming", Val.vBool true)]

/-- A one-node Markdown snapshot (not a `Text` node). -/
def c3m : Fields :=
  [("type", Val.vStr "Markdown"), ("id", Val.vStr "t"), ("value", Val.vStr "hi")]

/-- A streaming-text snapshot whose value will regress. -/
def c4b : Fields :=
  [("type", Val.vStr "Text"), ("id", Val.vStr "t"), ("value", Val.vStr "hello"),
   ("streaming", Val.vBool true)]

/-- `c4b` after the value regressed from "hello" to "bye". -/
def c4a : Fields :=
  [("type", Val.vStr "Text"), ("id", Val.vStr "t"), ("value", Val.vStr "bye"),
   ("streaming", Val.vBool true)]

/-- A card whose text node sits under a non-`children` field. -/
def c5b : Fields :=
  [("type", Val.vStr "Card"),
   ("content", Val.vObj [("type", Val.vStr "Text"), ("id", Val.vStr "t"),
     ("value", Val.vStr "hi"), ("streaming", Val.vBool true)])]

/-- `c5b` with the nested text value extended by `"!"`. -/
def c5a : Fields :=
  [("type", Val.vStr "Card"),
   ("content", Val.vObj [("type", Val.vStr "Text"), ("id", Val.vStr "t"),
     ("value", Val.vStr "hi!"), ("streaming", Val.vBool true)])]

/-- A text node reachable through a `children` array. -/
def c5t : Fields :=
  [("type", Val.vStr "Text"), ("id", Val.vStr "t"), ("value", Val.vStr "Hello"),
   ("streaming", Val.vBool false)]

/-- A card whose text node sits under `children` at index 0. -/
def c5fs : Fields :=
  [("type", Val.vStr "Card"), ("children", Val.vArr [Val.vObj c5t])]

/-- A store with one thread of three items: a user message followed by
two newer assistant messages. -/
def rstore : StoreSt :=
  ⟨[⟨"thr", none⟩],
   [("thr", [Item.userMessage "u1" "thr" ["hello"],
             Item.assistantMessage "a1" "thr" [⟨"x", []⟩],
             Item.assistantMessage "a2" "thr" [⟨"y", []⟩]])]⟩

/-!
## The remaining claims
-/

/-- C1: `threads.retry_after_item` pages the thread in ASCENDING order
and collects the items encountered BEFORE the target, so for a thread
whose target user message precedes its two newer items nothing at all
is deleted — the two newer items survive, contradicting the spec's
promise that exactly they are removed.  (The retry still re-invokes the
turn source, modelled by the coordinator's output in the result.) -/
theorem C1_retry_keeps_newer_items (st : StoreSt) (tid target : String)
    (ac : Bool) (c : List String) (i2 i3 : Item)
    (hitems : itemsOf st tid = [Item.userMessage target tid c, i2, i3]) :
    (retryAfterItem st tid target ac [] Terminal.normal).map
      (fun r => itemsOf r.2 tid) =
      Except.ok [Item.userMessage target tid c, i2, i3] := by
  have hlen : (itemsOf st tid).length ≤ DEFAULT_PAGE_SIZE := by
    rw [hitems]
    simp [DEFAULT_PAGE_SIZE]
  have hpag : paginateAll st tid = [Item.userMessage target tid c, i2, i3] := by
    rw [paginateAll_short st tid hlen, hitems]
  have hcol : retryCollect (paginateAll st tid) target =
      .ok ([], some (Item.userMessage target tid c)) := by
    rw [hpag]
    simp only [retryCollect]
    rw [if_pos (show Item.id (Item.userMessage target tid c) = target from rfl)]
  unfold retryAfterItem
  rw [hcol]
  show Except.ok (itemsOf st tid) = _
  rw [hitems]

/-- C6: on the producer yielding exactly the two snapshots of the
spec's example, the emitter yields exactly three events — added with
value "", one streaming-text delta "Hello, world" with done = true, and
done with the final snapshot — all carrying the same item id. -/
theorem C6_hello_world_stream :
    streamWidgetGen "th" "w1" none [c6w1, c6w2] =
      Except.ok [SEvent.itemAdded (Item.widgetItem "w1" "th" c6w1 none),
        SEvent.itemUpdated "w1" (ItemUpdate.widgetDelta
          (Delta.textDelta "t" "Hello, world" true)),
        SEvent.itemDone (Item.widgetItem "w1" "th" c6w2 none)] := by
  rfl

/-- C7: a turn source that throws a non-special exception after zero
events produces exactly stream_options, one stream_error event with
allowRetry = true, and one final thread.updated snapshot; the exception
is absorbed into the error event (the coordinator returns a value, it
does not propagate the failure). -/
theorem C7_throw_no_events (thread : ThreadMeta) (st : StoreSt) (ac : Bool) :
    processEvents thread st ac [] Terminal.throwOther =
      ([SEvent.streamOptions ac,
        SEvent.errorEvent ECode.streamError (some DEFAULT_ERROR_MESSAGE) true,
        SEvent.threadUpdated (buildSnapshot thread.id st [])], st) := rfl

/-- C8: the default cancellation handler persists exactly the pending
assistant messages with non-blank accumulated text, followed by one
sdk-hidden-context item carrying the cancellation message; in
particular a pending "Hello, " message is kept together with the hidden
item, and a blank pending message leaves only the hidden item. -/
theorem C8_cancel_persists :
    (∀ (st : StoreSt) (thread : ThreadMeta) (P : List Item) (hid : String),
      itemsOf (handleStreamCancelled st thread P hid) thread.id =
        itemsOf st thread.id ++ P.filter keepPending ++
          [Item.sdkHiddenContext hid thread.id cancelMessage]) ∧
    itemsOf (handleStreamCancelled ⟨[], []⟩ ⟨"th", none⟩
        [Item.assistantMessage "a1" "th" [⟨"Hello, ", []⟩]] "h1") "th" =
      [Item.assistantMessage "a1" "th" [⟨"Hello, ", []⟩],
       Item.sdkHiddenContext "h1" "th" cancelMessage] ∧
    itemsOf (handleStreamCancelled ⟨[], []⟩ ⟨"th", none⟩
        [Item.assistantMessage "a1" "th" [⟨"   ", []⟩]] "h1") "th" =
      [Item.sdkHiddenContext "h1" "th" cancelMessage] :=
  ⟨handleStreamCancelled_items, by decide, by decide⟩

/-- C9: a done item (hidden or not) is persisted by appending it to the
thread; the coordinator's output never contains an item-done event for
a hidden-context item; and the synthesised thread snapshots and
items.list pages never contain hidden items. -/
theorem C9_hidden_suppression :
    (∀ (tid : String) (st : StoreSt) (pending : List (String × Item)) (it : Item),
      itemsOf ((stepEvent tid st pending (SEvent.itemDone it)).1) tid =
        itemsOf st tid ++ [it]) ∧
    (∀ (thread : ThreadMeta) (st : StoreSt) (ac : Bool) (evs : List SEvent)
        (term : Terminal),
      ((processEvents thread st ac evs term).1.all
        (fun e => ! isHiddenDoneEvent e)) = true) ∧
    (∀ (tid : String) (st : StoreSt) (pending : List (String × Item)),
      ((buildSnapshot tid st pending).items.data.all
        (fun i => ! isHiddenItem i)) = true) ∧
    (∀ (st : StoreSt) (tid : String) (after : Option String) (limit : Nat)
        (asc : Bool),
      ((itemsListResponse st tid after limit asc).data.all
        (fun i => ! isHiddenItem i)) = true) :=
  ⟨fun tid st _ it => itemsOf_addThreadItem st tid it,
   processEvents_no_hidden, buildSnapshot_no_hidden, itemsList_no_hidden⟩

/-- C10: a retry request whose item id matches no stored item walks the
whole thread without finding the target, so it returns successfully
with no events and leaves the store untouched. -/
theorem C10_retry_unknown_target (st : StoreSt) (tid target : String)
    (ac : Bool) (evs : List SEvent) (term : Terminal)
    (h : ∀ i ∈ itemsOf st tid, Item.id i ≠ target) :
    retryAfterItem st tid target ac evs term = .ok ([], st) := by
  unfold retryAfterItem
  rw [retryCollect_no_match (paginateAll st tid) target
    (fun i hi => h i (mem_paginateAll hi))]

/-!
## Counterexamples to the original claim texts
-/

/-- C2 counterexample: flipping the streaming flag of the only text
node (value unchanged) yields the empty delta list, not the single
empty done-delta the spec promises. -/
theorem C2cex :
    diffWidget c2b (setKey c2b "streaming" (Val.vBool false)) = Except.ok [] ∧
    (Except.ok [] : Except DiffError (List Delta)) ≠
      Except.ok [Delta.textDelta "t" "" true] :=
  ⟨rfl, by simp⟩

/-- C3 counterexample: a Markdown node's prefix-extended value DOES
trigger a full replace — the exemption is reserved to `Text` nodes. -/
theorem C3cex : fullReplace c3m (extendValueF " there" c3m) = true := rfl

/-- C4 counterexample: a regressed streaming-text value produces a
root full-replace delta, not the NonCumulativeUpdateError the spec
promises. -/
theorem C4cex :
    diffWidget c4b c4a = Except.ok [Delta.rootUpdated c4a] ∧
    diffWidget c4b c4a ≠
      Except.error (DiffError.nonCumulative "t") :=
  ⟨rfl, fun h => by
    rw [show diffWidget c4b c4a = Except.ok [Delta.rootUpdated c4a] from rfl] at h
    exact Except.noConfusion h⟩

/-- C5 counterexample: an id-bearing Text node stored under a
non-`children` field has its value extended by "!" with every other
field unchanged, yet the diff yields no delta at all (the collector
only recurses through `children`), not the single delta the claim
promises. -/
theorem C5cex :
    diffWidget c5b c5a = Except.ok [] ∧
    (Except.ok [] : Except DiffError (List Delta)) ≠
      Except.ok [Delta.textDelta "t" "!" false] :=
  ⟨rfl, by simp⟩

/-!
## Witnesses
-/

theorem C1wit :
    itemsOf rstore "thr" = [Item.userMessage "u1" "thr" ["hello"],
      Item.assistantMessage "a1" "thr" [⟨"x", []⟩],
      Item.assistantMessage "a2" "thr" [⟨"y", []⟩]] ∧
    (retryAfterItem rstore "thr" "u1" true [] Terminal.normal).map
      (fun r => itemsOf r.2 "thr") =
      Except.ok [Item.userMessage "u1" "thr" ["hello"],
        Item.assistantMessage "a1" "thr" [⟨"x", []⟩],
        Item.assistantMessage "a2" "thr" [⟨"y", []⟩]] :=
  ⟨by decide,
   C1_retry_keeps_newer_items rstore "thr" "u1" true ["hello"]
     (Item.assistantMessage "a1" "thr" [⟨"x", []⟩])
     (Item.assistantMessage "a2" "thr" [⟨"y", []⟩]) (by decide)⟩

theorem C2wit :
    isStreamingTextN c2b = true ∧
    diffWidget c2b (updAt c2b [] (fun u => setKey u "streaming" (Val.vBool false))) =
      Except.ok [] :=
  ⟨by decide,
   C2_streaming_flip_diff_empty c2b [] c2b (Val.vBool false) "t"
     (by decide) (by decide) (by decide) (by decide) (by decide)⟩

theorem C3wit :
    isStreamingTextN c2b = true ∧
    (fullReplace c2b (updAt c2b [] (extendValueF "!")) = false ∧
     fullReplace c2b (updAt c2b [] (fun u => setKey u "streaming" (Val.vBool false))) =
       false) :=
  ⟨by decide,
   C3_exemptions_only_for_text c2b [] c2b "!" (Val.vBool false)
     (by decide) (by decide) (by decide)⟩

theorem C4wit :
    strStarts "bye" (strValueOf c4b) = false ∧
    diffWidget c4b (updAt c4b [] (fun u => setKey u "value" (Val.vStr "bye"))) =
      Except.ok [Delta.rootUpdated
        (updAt c4b [] (fun u => setKey u "value" (Val.vStr "bye")))] :=
  ⟨by decide,
   C4_regression_full_replace c4b [] c4b "bye"
     (by decide) (by decide) (by decide) (by decide) (by decide)⟩

theorem C5wit :
    pathOk c5fs [0] = true ∧
    diffWidget c5fs (updAt c5fs [0] (extendValueF ", world")) =
      Except.ok [Delta.textDelta "t" ", world"
        (! streamingFlag (extendValueF ", world" c5t))] :=
  ⟨by decide,
   C5_value_extension_single_delta c5fs [0] c5t ", world" "t"
     (by decide) (by decide) (by decide) (by decide) (by decide) (by decide)⟩

theorem C10wit :
    (∀ i ∈ itemsOf rstore "thr", Item.id i ≠ "zzz") ∧
    retryAfterItem rstore "thr" "zzz" true [] Terminal.normal =
      .ok ([], rstore) :=
  ⟨by decide,
   C10_retry_unknown_target rstore "thr" "zzz" true [] Terminal.normal (by decide)⟩

end ChatKit
